import Mathlib

/-!
Verification of the incremental translation engine of rosetta-mark.

The definitions below are a shallow embedding of the TypeScript sources:
  * `src/src/engine/parser.ts`   — segmentation, joining, size estimation
  * `src/src/engine/translator.ts` — forward incremental translation and
    reverse reconciliation
  * `src/unnamed/part_002` (the AI service) — error classification, retry
    with backoff, and the batched concurrent dispatcher

External collaborators are abstracted exactly as the spec prescribes:
the translate capability is a parameter `f : String → TranslationResult`,
the content hash (node `crypto` md5, external to the repository) is a
parameter `hashF : String → String`, the abort signal is a Boolean
function of the check occasion (batch start index for the dispatcher,
attempt number for the retry loop), and the wall clock / sleep are
modelled by recording the requested delays in a list.
-/

/-! ### Data model (`src/unnamed/part_001`, types.ts) -/

/-- Error codes, from `TranslationErrorCode` in types.ts. -/
inductive TranslationErrorCode where
  | NETWORK_ERROR
  | RATE_LIMIT
  | AUTH_ERROR
  | INVALID_RESPONSE
  | CANCELLED
  | FILE_TOO_LARGE
  | UNKNOWN
deriving DecidableEq, Repr

/-- `TranslationError` from types.ts. The `cause` field (the wrapped raw
JavaScript error) carries no behaviour and is dropped from the model. -/
structure TranslationError where
  message : String
  code : TranslationErrorCode
  retryable : Bool := false
deriving DecidableEq, Repr

/-- The cancellation error thrown by `withRetry` and `translateParagraphs`. -/
def cancelledError : TranslationError :=
  { message := "Translation was cancelled.", code := TranslationErrorCode.CANCELLED }

/-- Token usage triple from types.ts. -/
structure TokenUsage where
  prompt : Nat
  completion : Nat
  total : Nat
deriving DecidableEq, Repr

/-- `TranslationResult` from types.ts: translated text plus optional usage. -/
structure TranslationResult where
  translatedText : String
  tokenUsage : Option TokenUsage
deriving DecidableEq, Repr

/-- `ParagraphMapping` from types.ts. -/
structure ParagraphMapping where
  sourceContent : String
  translatedContent : String
  sourceHash : String
deriving DecidableEq, Repr

/-- Segment kinds of `ParsedParagraph` in parser.ts (the union type
`'text' | 'code' | 'frontmatter'`). -/
inductive ParagraphType where
  | text
  | code
  | frontmatter
deriving DecidableEq, Repr

/-- `ParsedParagraph` from parser.ts. -/
structure ParsedParagraph where
  content : String
  type : ParagraphType
  hash : String
  startLine : Nat
  endLine : Nat
deriving DecidableEq, Repr

/-- Decidable equality for `Except`, used to evaluate engine outcomes on
concrete inputs. -/
instance exceptDecEq {ε α : Type} [DecidableEq ε] [DecidableEq α] : DecidableEq (Except ε α) :=
  fun x y =>
    match x, y with
    | Except.ok a, Except.ok b =>
      if h : a = b then isTrue (by rw [h]) else isFalse (by simp [h])
    | Except.error a, Except.error b =>
      if h : a = b then isTrue (by rw [h]) else isFalse (by simp [h])
    | Except.ok _, Except.error _ => isFalse (by simp)
    | Except.error _, Except.ok _ => isFalse (by simp)

/-! ### JavaScript string primitives

The string operations the sources rely on — `split('\n')`, `trim()`,
`startsWith`, `includes`, `toLowerCase` — are modelled by structural
recursion on the character list of the string, mirroring the JavaScript
semantics. -/

/-- Characters removed by `String.prototype.trim` (the whitespace kinds
that occur in text documents). -/
def isJsSpace (c : Char) : Bool :=
  c = ' ' || c = '\t' || c = '\n' || c = '\r'

/-- `s.trim()`: strip leading and trailing whitespace. -/
def jsTrim (s : String) : String :=
  String.mk (((s.data.dropWhile isJsSpace).reverse.dropWhile isJsSpace).reverse)

/-- `s.split('\n')` helper: cut the character list at every newline.
`curr` is the current piece, reversed. -/
def jsSplitLinesGo (curr : List Char) : List Char → List String
  | [] => [String.mk curr.reverse]
  | c :: rest =>
    if c = '\n' then String.mk curr.reverse :: jsSplitLinesGo [] rest
    else jsSplitLinesGo (c :: curr) rest

/-- `s.split('\n')`. -/
def jsSplitLines (s : String) : List String :=
  jsSplitLinesGo [] s.data

/-- `s.startsWith(pre)`. -/
def jsStartsWith (s pre : String) : Bool :=
  pre.data.isPrefixOf s.data

/-- `s.includes(pat)` on character lists: some suffix starts with `pat`. -/
def listIncludes (pat : List Char) : List Char → Bool
  | [] => pat.isEmpty
  | c :: rest => pat.isPrefixOf (c :: rest) || listIncludes pat rest

/-- `s.includes(pat)`. -/
def strIncludes (s pat : String) : Bool :=
  listIncludes pat.data s.data

/-- `s.toLowerCase()` (ASCII, which covers every keyword tested below). -/
def jsToLower (s : String) : String :=
  String.mk (s.data.map Char.toLower)

/-! ### Error classification and retry (`src/unnamed/part_002`) -/

/-- A raw thrown value reaching `classifyError`: either an already typed
`TranslationError` (passed through) or an untyped error with a message. -/
inductive RawError where
  | translation (e : TranslationError)
  | message (s : String)
deriving DecidableEq, Repr

/-- `classifyError` from the AI service: keyword classification of the
lowercased message, producing a typed `TranslationError`. -/
def classifyError (error : RawError) : TranslationError :=
  match error with
  | RawError.translation e => e
  | RawError.message errorMessage =>
    let lowerMessage := jsToLower errorMessage
    if strIncludes lowerMessage "rate limit" || strIncludes lowerMessage "429" then
      { message := "Rate limit exceeded. Please wait before retrying.",
        code := TranslationErrorCode.RATE_LIMIT, retryable := true }
    else if strIncludes lowerMessage "unauthorized" || strIncludes lowerMessage "401" ||
        strIncludes lowerMessage "invalid api key" || strIncludes lowerMessage "authentication" then
      { message := "Authentication failed. Please check your API key.",
        code := TranslationErrorCode.AUTH_ERROR, retryable := false }
    else if strIncludes lowerMessage "network" || strIncludes lowerMessage "econnrefused" ||
        strIncludes lowerMessage "timeout" || strIncludes lowerMessage "enotfound" then
      { message := "Network error. Please check your connection.",
        code := TranslationErrorCode.NETWORK_ERROR, retryable := true }
    else if strIncludes lowerMessage "abort" || strIncludes lowerMessage "cancel" then
      { message := "Translation was cancelled.",
        code := TranslationErrorCode.CANCELLED, retryable := false }
    else
      { message := errorMessage, code := TranslationErrorCode.UNKNOWN, retryable := true }

/-- `DEFAULT_MAX_RETRIES` from the AI service. -/
def DEFAULT_MAX_RETRIES : Nat := 3

/-- `RETRY_DELAY_MS` from the AI service. -/
def RETRY_DELAY_MS : Nat := 1000

/-- `RATE_LIMIT_DELAY_MS` from the AI service. -/
def RATE_LIMIT_DELAY_MS : Nat := 60000

/-- Loop body of `withRetry`. `op a` is the outcome of the underlying
operation on attempt `a`; `sig a` is the abort signal as observed at the
start of attempt `a`; `fuel` counts the remaining loop iterations
(`maxRetries - attempt`); `delays` accumulates the backoff sleeps
(reversed). The error type `Option TranslationError` models the final
`throw lastError`, which rethrows `undefined` (here `none`) when the loop
never ran (`maxRetries = 0`). -/
def withRetryGo {T : Type} (op : Nat → Except RawError T) (maxRetries : Nat) (sig : Nat → Bool) :
    Nat → Nat → Option TranslationError → List Nat →
    Except (Option TranslationError) T × List Nat
  | _, 0, lastError, delays => (Except.error lastError, delays.reverse)
  | attempt, fuel + 1, _, delays =>
    if sig attempt then (Except.error (some cancelledError), delays.reverse)
    else
      match op attempt with
      | Except.ok v => (Except.ok v, delays.reverse)
      | Except.error err =>
        let lastError := classifyError err
        if lastError.retryable = false then (Except.error (some lastError), delays.reverse)
        else if attempt < maxRetries - 1 then
          let delay := if lastError.code = TranslationErrorCode.RATE_LIMIT
            then RATE_LIMIT_DELAY_MS
            else RETRY_DELAY_MS * 2 ^ attempt
          withRetryGo op maxRetries sig (attempt + 1) fuel (some lastError) (delay :: delays)
        else
          withRetryGo op maxRetries sig (attempt + 1) fuel (some lastError) delays

/-- `withRetry` from the AI service: run `op` for up to `maxRetries`
attempts, checking the signal before each attempt, classifying failures,
surfacing non-retryable errors immediately, sleeping between retryable
attempts, and propagating the last classified error once attempts are
exhausted. Returns the outcome together with the list of backoff delays
that were slept, in order. -/
def withRetry {T : Type} (op : Nat → Except RawError T) (maxRetries : Nat) (sig : Nat → Bool) :
    Except (Option TranslationError) T × List Nat :=
  withRetryGo op maxRetries sig 0 maxRetries none []

/-! ### Segmenter (`src/src/engine/parser.ts`) -/

/-- Scanner state of `splitIntoParagraphsWithHash` (the local variables of
its line loop). `paragraphs` accumulates finished segments in order. -/
structure ScanState where
  paragraphs : List ParsedParagraph
  currentParagraph : List String
  startLine : Nat
  inCodeBlock : Bool
  codeBlockStart : Nat
deriving Repr

/-- The `if (inCodeBlock)` block of the line loop: at the opening fence
(`i = codeBlockStart`) the fence line itself (read back as
`lines[codeBlockStart]`) is pushed; on later lines the current line is
appended to the code paragraph. -/
def inCodeStep (lines : List String) (s : ScanState) (i : Nat) (line : String) : ScanState :=
  let s1 := if s.currentParagraph.length = 0
    then { s with currentParagraph := [lines.getD s.codeBlockStart ""] }
    else s
  if i ≠ s.codeBlockStart
    then { s1 with currentParagraph := s1.currentParagraph ++ [line] }
    else s1

/-- One iteration of the line loop of `splitIntoParagraphsWithHash`:
fence lines toggle code mode (closing the pending text paragraph on an
opening fence and emitting the code segment on a closing fence), blank
lines outside code close the pending text paragraph, and other lines are
appended to it. `hashF` abstracts `calculateHash` (md5 of the content). -/
def scanStep (hashF : String → String) (lines : List String) (s : ScanState) (i : Nat)
    (line : String) : ScanState :=
  let trimmedLine := jsTrim line
  if jsStartsWith trimmedLine "```" then
    if s.inCodeBlock = false then
      let s1 :=
        if s.currentParagraph.length > 0 then
          let c := String.intercalate "\n" s.currentParagraph
          { s with
            paragraphs := s.paragraphs ++
              [⟨c, ParagraphType.text, hashF c, s.startLine, i - 1⟩],
            currentParagraph := [] }
        else s
      let s2 := { s1 with inCodeBlock := true, codeBlockStart := i }
      inCodeStep lines s2 i line
    else
      let c := String.intercalate "\n" (s.currentParagraph ++ [line])
      { s with
        paragraphs := s.paragraphs ++
          [⟨c, ParagraphType.code, hashF c, s.codeBlockStart, i⟩],
        currentParagraph := [], inCodeBlock := false, startLine := i + 1 }
  else if s.inCodeBlock then
    inCodeStep lines s i line
  else if trimmedLine = "" then
    if s.currentParagraph.length > 0 then
      let c := String.intercalate "\n" s.currentParagraph
      { s with
        paragraphs := s.paragraphs ++
          [⟨c, ParagraphType.text, hashF c, s.startLine, i - 1⟩],
        currentParagraph := [], startLine := i + 1 }
    else { s with startLine := i + 1 }
  else
    let s1 := if s.currentParagraph.length = 0 then { s with startLine := i } else s
    { s1 with currentParagraph := s1.currentParagraph ++ [line] }

/-- Run the line loop over the enumerated lines. -/
def scanList (hashF : String → String) (lines : List String) :
    List (Nat × String) → ScanState → ScanState
  | [], s => s
  | (i, line) :: rest, s => scanList hashF lines rest (scanStep hashF lines s i line)

/-- The trailing flush after the loop: the last pending paragraph is
emitted as code when the fence was left open, as text otherwise. -/
def finishScan (hashF : String → String) (lines : List String) (s : ScanState) :
    List ParsedParagraph :=
  if s.currentParagraph.length > 0 then
    let c := String.intercalate "\n" s.currentParagraph
    s.paragraphs ++
      [⟨c, (if s.inCodeBlock then ParagraphType.code else ParagraphType.text),
        hashF c, s.startLine, lines.length - 1⟩]
  else s.paragraphs

/-- `splitIntoParagraphsWithHash` from parser.ts: split the document into
typed, hashed segments by scanning its lines. -/
def splitIntoParagraphsWithHash (hashF : String → String) (content : String) :
    List ParsedParagraph :=
  let lines := jsSplitLines content
  finishScan hashF lines (scanList hashF lines lines.enum ⟨[], [], 0, false, 0⟩)

/-- Helper for `splitIntoParagraphs`: split a character list at each
maximal run of two or more newlines, the behaviour of
`content.split(/\n\n+/)` (the regex is greedy, so a whole run of
newlines is one separator; a single newline is not a separator and stays
inside its piece). `pieces` are the finished pieces, `curr` the current
piece reversed, `nl` the number of newlines seen immediately before the
current position. -/
def splitNNGo (pieces : List String) (curr : List Char) (nl : Nat) : List Char → List String
  | [] =>
    if nl ≥ 2 then pieces ++ [String.mk curr.reverse, ""]
    else if nl = 1 then pieces ++ [String.mk ('\n' :: curr).reverse]
    else pieces ++ [String.mk curr.reverse]
  | c :: rest =>
    if c = '\n' then splitNNGo pieces curr (nl + 1) rest
    else if nl ≥ 2 then splitNNGo (pieces ++ [String.mk curr.reverse]) [c] 0 rest
    else if nl = 1 then splitNNGo pieces (c :: '\n' :: curr) 0 rest
    else splitNNGo pieces (c :: curr) 0 rest

/-- `splitIntoParagraphs` from parser.ts: `content.split(/\n\n+/)` with
whitespace-only pieces filtered out. -/
def splitIntoParagraphs (content : String) : List String :=
  (splitNNGo [] [] 0 content.data).filter (fun p => jsTrim p != "")

/-- `joinParagraphs` from parser.ts. -/
def joinParagraphs (paragraphs : List String) : String :=
  String.intercalate "\n\n" paragraphs

/-- `joinParsedParagraphs` from parser.ts. -/
def joinParsedParagraphs (paragraphs : List ParsedParagraph) : String :=
  String.intercalate "\n\n" (paragraphs.map (fun p => p.content))

/-! ### Bounded concurrent dispatcher (`translateParagraphs` in the AI service)

A batch is issued with `Promise.all`; every call of the batch writes its
result into the shared `results` array at its own global index, so the
final array does not depend on the order in which the concurrent calls of
a batch complete. We model the batch as the list of `(index, result)`
writes it performs, a completion order as any permutation of that list,
and the results array as a partial function `Nat → Option TranslationResult»
(a JavaScript array created by `new Array(n)` starts with holes). -/

/-- The writes performed by one batch starting at global index `start`:
unit `batchIndex` of the batch writes `f batch[batchIndex]` to
`start + batchIndex`. -/
def batchWrites (f : String → TranslationResult) (start : Nat) :
    List String → List (Nat × TranslationResult)
  | [] => []
  | x :: xs => (start, f x) :: batchWrites f (start + 1) xs

/-- Apply a list of index-keyed writes to the results array, in order. -/
def writeResults (w : List (Nat × TranslationResult))
    (res : Nat → Option TranslationResult) : Nat → Option TranslationResult :=
  w.foldl (fun acc x => fun j => if j = x.1 then some x.2 else acc j) res

/-- Apply the batches of writes in sequence to an initially empty array. -/
def runSchedule (bs : List (List (Nat × TranslationResult))) :
    Nat → Option TranslationResult :=
  bs.foldl (fun res w => writeResults w res) (fun _ => none)

/-- The batch loop of `translateParagraphs`: take `maxConcurrency` units
at a time, checking the abort signal (`sig`, indexed by the batch start
`i`) before each batch. Returns the per-batch write lists (or the
cancellation error) together with the indices of all units that were
started. `fuel` bounds the number of loop iterations so the recursion is
structural; since each iteration with a positive concurrency cap consumes
at least one unit, fuel `ps.length` is never exhausted — except with
`maxConcurrency = 0`, where the source loop `i += maxConcurrency` never
terminates, and the fuel models the cutoff. All theorems assume a
positive cap. -/
def dispatchGo (f : String → TranslationResult) (maxConcurrency : Nat) (sig : Nat → Bool) :
    Nat → List String → Nat →
    Except TranslationError (List (List (Nat × TranslationResult))) × List Nat
  | _, [], _ => (Except.ok [], [])
  | 0, _ :: _, _ => (Except.ok [], [])
  | fuel + 1, p :: rest, start =>
    if sig start then (Except.error cancelledError, [])
    else
      let w := batchWrites f start ((p :: rest).take maxConcurrency)
      let r := dispatchGo f maxConcurrency sig fuel ((p :: rest).drop maxConcurrency)
        (start + maxConcurrency)
      ((match r.1 with
        | Except.ok bs => Except.ok (w :: bs)
        | Except.error e => Except.error e),
       w.map (fun x => x.1) ++ r.2)

/-- The batch loop of `translateParagraphs`, starting with enough fuel for
all its batches. -/
def dispatchBatches (f : String → TranslationResult) (maxConcurrency : Nat) (sig : Nat → Bool)
    (ps : List String) (start : Nat) :
    Except TranslationError (List (List (Nat × TranslationResult))) × List Nat :=
  dispatchGo f maxConcurrency sig ps.length ps start

/-- `translateParagraphs` from the AI service: dispatch the paragraphs in
consecutive batches of `maxConcurrency` concurrent calls, collecting one
result per paragraph at the paragraph's own index. The second component
is the list of unit indices that were started. -/
def translateParagraphs (f : String → TranslationResult) (maxConcurrency : Nat)
    (sig : Nat → Bool) (ps : List String) :
    Except TranslationError (Nat → Option TranslationResult) × List Nat :=
  let d := dispatchBatches f maxConcurrency sig ps 0
  ((match d.1 with
    | Except.ok bs => Except.ok (runSchedule bs)
    | Except.error e => Except.error e), d.2)

/-! ### Forward incremental translation (`translateIncremental` in translator.ts) -/

/-- The `existingHashMap` lookup: a `Map` is filled by iterating the prior
paragraphs with `set(p.sourceHash, p)`, so a later entry with the same
hash overwrites an earlier one. -/
def hashLookup (existing : List ParagraphMapping) (h : String) : Option ParagraphMapping :=
  existing.foldl (fun acc p => if p.sourceHash = h then some p else acc) none

/-- The pass-through mapping entry produced for a code segment. -/
def passThroughEntry (p : ParsedParagraph) : ParagraphMapping :=
  ⟨p.content, p.content, p.hash⟩

/-- The placeholder mapping entry for a segment that must be translated
(`translatedContent` empty, to be filled after dispatch). -/
def pendingEntry (p : ParsedParagraph) : ParagraphMapping :=
  ⟨p.content, "", p.hash⟩

/-- The classification loop of `translateIncremental`: walk the current
segments (with their absolute position starting at `i`), route code
segments to pass-through entries, reuse prior entries with a matching
hash, and queue the rest for translation. Returns
`(paragraphsToTranslate, resultParagraphs)`. -/
def classifySegments (existing : List ParagraphMapping) :
    List ParsedParagraph → Nat → List (Nat × ParsedParagraph) × List ParagraphMapping
  | [], _ => ([], [])
  | p :: rest, i =>
    let r := classifySegments existing rest (i + 1)
    if p.type = ParagraphType.code then (r.1, passThroughEntry p :: r.2)
    else
      match hashLookup existing p.hash with
      | some e => (r.1, e :: r.2)
      | none => ((i, p) :: r.1, pendingEntry p :: r.2)

/-- Placeholder for reading a hole of the results array; every slot the
engine reads is in fact written (proved below), so this default is never
the value actually used. -/
def defaultTranslationResult : TranslationResult := ⟨"", none⟩

/-- The fill loop of `translateIncremental`:
`resultParagraphs[toTranslate[k].index].translatedContent :=
results[k].translatedText` for every dispatched unit `k`. -/
def fillLoop (paras : List ParagraphMapping) (toTranslate : List (Nat × ParsedParagraph))
    (results : List TranslationResult) : List ParagraphMapping :=
  (toTranslate.zip results).foldl
    (fun acc ur =>
      match acc[ur.1.1]? with
      | some p => acc.set ur.1.1 { p with translatedContent := ur.2.translatedText }
      | none => acc)
    paras

/-- The token-usage accumulation loop: sum the usages of the dispatched
results componentwise, skipping results that report none. -/
def sumUsages (rs : List TranslationResult) : TokenUsage :=
  rs.foldl
    (fun acc r =>
      match r.tokenUsage with
      | some u => ⟨acc.prompt + u.prompt, acc.completion + u.completion, acc.total + u.total⟩
      | none => acc)
    ⟨0, 0, 0⟩

/-- `IncrementalTranslationResult` from types.ts. -/
structure IncrementalTranslationResult where
  translatedText : String
  paragraphs : List ParagraphMapping
  changedParagraphs : Nat
  reusedParagraphs : Nat
  tokenUsage : Option TokenUsage
deriving DecidableEq, Repr

/-- `translateIncremental` from translator.ts: segment the document,
reuse cached translations by source hash, dispatch only the remaining
segments, fill their results back in, and accumulate token usage (the
`tokenUsage` field is `undefined` unless the accumulated total is
positive). The second component is `paragraphsToTranslate` as
`(index, text)` pairs — the translation units handed to the dispatcher;
when it is empty the dispatcher is not invoked at all. -/
def translateIncremental (hashF : String → String) (f : String → TranslationResult)
    (maxConcurrency : Nat) (sig : Nat → Bool) (content : String)
    (existingParagraphs : List ParagraphMapping) :
    Except TranslationError IncrementalTranslationResult × List (Nat × String) :=
  let currentParagraphs := splitIntoParagraphsWithHash hashF content
  let totalParagraphs := currentParagraphs.length
  let plan := classifySegments existingParagraphs currentParagraphs 0
  let paragraphsToTranslate := plan.1
  let resultParagraphs := plan.2
  let reusedCount := totalParagraphs - paragraphsToTranslate.length
  let units := paragraphsToTranslate.map (fun u => (u.1, u.2.content))
  ((if paragraphsToTranslate.length = 0 then
      -- no dispatch happens; `totalTokenUsage` stays zero, so the field is undefined
      Except.ok
        (⟨joinParagraphs (resultParagraphs.map (fun p => p.translatedContent)),
          resultParagraphs, 0, reusedCount, none⟩ : IncrementalTranslationResult)
    else
      let textsToTranslate := paragraphsToTranslate.map (fun u => u.2.content)
      match (translateParagraphs f maxConcurrency sig textsToTranslate).1 with
      | Except.error e => Except.error e
      | Except.ok resFun =>
        let results := (List.range textsToTranslate.length).map
          (fun k => (resFun k).getD defaultTranslationResult)
        let filled := fillLoop resultParagraphs paragraphsToTranslate results
        let usage := sumUsages results
        Except.ok
          ⟨joinParagraphs (filled.map (fun p => p.translatedContent)), filled,
            paragraphsToTranslate.length, reusedCount,
            if usage.total > 0 then some usage else none⟩), units)

/-! ### Reverse reconciliation (`reverseTranslate` in translator.ts) -/

/-- The modification test of the reverse loop: position `i` is modified
when no saved entry exists there or the edited paragraph differs from the
saved translated content. -/
def isModified (cur : List String) (saved : List ParagraphMapping) (i : Nat) : Bool :=
  match saved[i]? with
  | none => true
  | some sp => cur.getD i "" != sp.translatedContent

/-- The detection loop of `reverseTranslate` over the positions of the
edited document. -/
def computeModifiedIndices (cur : List String) (saved : List ParagraphMapping) : List Nat :=
  (List.range cur.length).filter (isModified cur saved)

/-- JavaScript array update with growth:
`if (i < arr.length) arr[i] = a else arr.push(a)`. -/
def updAt {α : Type} (l : List α) (i : Nat) (a : α) : List α :=
  if i < l.length then l.set i a else l ++ [a]

/-- `ReverseTranslationResult` from translator.ts. -/
structure ReverseTranslationResult where
  modifiedIndices : List Nat
  translatedParagraphs : List (Nat × String)
  newSourceContent : String
  newParagraphs : List ParagraphMapping
deriving DecidableEq, Repr

/-- `reverseTranslate` from translator.ts: split the edited translated
document on blank-line runs, mark positionally modified paragraphs,
dispatch exactly those back through the translate capability, and rebuild
the source document and the mapping. The second component is the list of
texts handed to the dispatcher (empty when nothing was modified: the
function returns early without dispatching). -/
def reverseTranslate (hashF : String → String) (f : String → TranslationResult)
    (maxConcurrency : Nat) (sig : Nat → Bool) (currentTranslatedContent : String)
    (savedParagraphs : List ParagraphMapping) :
    Except TranslationError ReverseTranslationResult × List String :=
  let currentParagraphs := splitIntoParagraphs currentTranslatedContent
  let modifiedIndices := computeModifiedIndices currentParagraphs savedParagraphs
  let paragraphsToTranslate := modifiedIndices.map (fun i => currentParagraphs.getD i "")
  ((if modifiedIndices.length = 0 then
      -- early return: nothing modified, nothing dispatched
      Except.ok
        (⟨[], [], joinParagraphs (savedParagraphs.map (fun p => p.sourceContent)),
          savedParagraphs⟩ : ReverseTranslationResult)
    else
      match (translateParagraphs f maxConcurrency sig paragraphsToTranslate).1 with
      | Except.error e => Except.error e
      | Except.ok resFun =>
        let translatedParagraphs := modifiedIndices.enum.map
          (fun ki => (ki.2, ((resFun ki.1).getD defaultTranslationResult).translatedText))
        -- `p.sourceHash || calculateHash(p.sourceContent)`: the hash is
        -- backfilled when the stored one is empty (the only falsy string)
        let newParagraphs0 := savedParagraphs.map
          (fun p =>
            { p with sourceHash := if p.sourceHash = "" then hashF p.sourceContent else p.sourceHash })
        let sourceContents0 := savedParagraphs.map (fun p => p.sourceContent)
        let sourceContents := translatedParagraphs.foldl
          (fun acc ic => updAt acc ic.1 ic.2) sourceContents0
        let newParagraphs := translatedParagraphs.foldl
          (fun acc ic => updAt acc ic.1 ⟨ic.2, currentParagraphs.getD ic.1 "", hashF ic.2⟩)
          newParagraphs0
        Except.ok
          ⟨modifiedIndices, translatedParagraphs,
            joinParagraphs sourceContents, newParagraphs⟩),
   if modifiedIndices.length = 0 then [] else paragraphsToTranslate)

/-! ### Spec-side normalization (for the round-trip claim)

The spec states the segmentation round-trip modulo "collapsing of
blank-line runs and leading/trailing blank lines". The next two
definitions formalize exactly those words (they are a rendering of the
spec, deliberately not derived from the source, to be compared with it). -/

/-- Modelled from the spec: group the lines of a document into maximal
blocks of consecutive non-blank lines (a line is blank when its trimmed
form is empty); blank-line runs between blocks and at either end are
dropped. `acc` is the currently open block. -/
def specBlocksAux (acc : List String) : List String → List (List String)
  | [] => if acc.isEmpty then [] else [acc]
  | l :: ls =>
    if jsTrim l = "" then
      if acc.isEmpty then specBlocksAux [] ls else acc :: specBlocksAux [] ls
    else specBlocksAux (acc ++ [l]) ls

/-- Modelled from the spec: the document with every maximal run of blank
lines collapsed to a single paragraph separator and leading/trailing
blank lines removed. -/
def specNormalizeBlankLines (content : String) : String :=
  String.intercalate "\n\n"
    ((specBlocksAux [] (jsSplitLines content)).map (String.intercalate "\n"))

/-! ### Concrete instances used by witnesses and counterexamples -/

/-- A concrete stand-in for the abstract content hash. -/
def exHash : String → String := fun s => "#" ++ s

/-- A concrete translate capability that reports token usage. -/
def exTranslate : String → TranslationResult :=
  fun s => ⟨"T:" ++ s, some ⟨s.length, 2 * s.length, 3 * s.length⟩⟩

/-- A concrete translate capability that reports no token usage. -/
def exTranslateNoUsage : String → TranslationResult := fun s => ⟨"T:" ++ s, none⟩

/-- The never-set abort signal. -/
def sigNever : Nat → Bool := fun _ => false

/-! ## Lemmas about the retry loop -/

/-- When every attempt fails with a retryable error, the loop sleeps the
policy delay between consecutive attempts and finally propagates the
classification of the last attempt's error. -/
theorem withRetryGo_all_retryable {T : Type} (errs : Nat → RawError) (n : Nat)
    (h : ∀ a, a < n → (classifyError (errs a)).retryable = true) :
    ∀ fuel attempt last delays, fuel ≠ 0 → attempt + fuel = n →
    withRetryGo (T := T) (fun a => Except.error (errs a)) n sigNever attempt fuel last delays =
      (Except.error (some (classifyError (errs (n - 1)))),
       delays.reverse ++ (List.range' attempt (fuel - 1)).map (fun a =>
          if (classifyError (errs a)).code = TranslationErrorCode.RATE_LIMIT
          then RATE_LIMIT_DELAY_MS else RETRY_DELAY_MS * 2 ^ a)) := by
  intro fuel
  induction fuel with
  | zero => intro _ _ _ hfuel _; exact absurd rfl hfuel
  | succ f ih =>
    intro attempt last delays _ hsum
    have hattempt : attempt < n := by omega
    rw [withRetryGo]
    simp only [sigNever, Bool.false_eq_true, if_false]
    rw [h attempt hattempt]
    simp only [Bool.true_eq_false, if_false]
    by_cases hf : f = 0
    · subst hf
      have hlast : attempt = n - 1 := by omega
      have hnot : ¬ attempt < n - 1 := by omega
      rw [if_neg hnot, withRetryGo]
      simp [hlast]
    · have hlt : attempt < n - 1 := by omega
      rw [if_pos hlt]
      rw [ih (attempt + 1) (some (classifyError (errs attempt)))
        ((if (classifyError (errs attempt)).code = TranslationErrorCode.RATE_LIMIT
          then RATE_LIMIT_DELAY_MS else RETRY_DELAY_MS * 2 ^ attempt) :: delays) hf (by omega)]
      have hrange : List.range' attempt (f + 1 - 1) = attempt :: List.range' (attempt + 1) (f - 1) := by
        have : f + 1 - 1 = (f - 1) + 1 := by omega
        rw [this, List.range'_succ]
      rw [hrange]
      simp

/-- Once the signal is observed set at an attempt boundary (all earlier
attempts having failed retryably), the retry loop stops with the
cancellation error without running the operation again. -/
theorem withRetryGo_cancelled {T : Type} (op : Nat → Except RawError T) (n : Nat)
    (sig : Nat → Bool) :
    ∀ a fuel attempt last delays, a < fuel → sig (attempt + a) = true →
    (∀ b, b < a → sig (attempt + b) = false) →
    (∀ b, b < a → ∃ e, op (attempt + b) = Except.error e ∧ (classifyError e).retryable = true) →
    (withRetryGo op n sig attempt fuel last delays).1 = Except.error (some cancelledError) := by
  intro a
  induction a with
  | zero =>
    intro fuel attempt last delays hfuel hsig _ _
    obtain ⟨g, rfl⟩ : ∃ g, fuel = g + 1 := ⟨fuel - 1, by omega⟩
    rw [withRetryGo]
    simp only [Nat.add_zero] at hsig
    rw [hsig]
    simp
  | succ a ih =>
    intro fuel attempt last delays hfuel hsig hprev hops
    obtain ⟨g, rfl⟩ : ∃ g, fuel = g + 1 := ⟨fuel - 1, by omega⟩
    obtain ⟨e, hop, hretry⟩ := hops 0 (Nat.succ_pos a)
    rw [withRetryGo]
    have h0 : sig attempt = false := by simpa using hprev 0 (Nat.succ_pos a)
    rw [h0]
    simp only [Bool.false_eq_true, if_false]
    simp only [Nat.add_zero] at hop
    rw [hop]
    have hshift_sig : sig (attempt + 1 + a) = true := by
      have : attempt + 1 + a = attempt + (a + 1) := by omega
      rw [this]; exact hsig
    have hshift_prev : ∀ b, b < a → sig (attempt + 1 + b) = false := by
      intro b hb
      have : attempt + 1 + b = attempt + (b + 1) := by omega
      rw [this]; exact hprev (b + 1) (by omega)
    have hshift_ops : ∀ b, b < a →
        ∃ e, op (attempt + 1 + b) = Except.error e ∧ (classifyError e).retryable = true := by
      intro b hb
      have : attempt + 1 + b = attempt + (b + 1) := by omega
      rw [this]; exact hops (b + 1) (by omega)
    simp only [hretry, Bool.true_eq_false, if_false]
    by_cases hlt : attempt < n - 1
    · rw [if_pos hlt]
      exact ih g (attempt + 1) _ _ (by omega) hshift_sig hshift_prev hshift_ops
    · rw [if_neg hlt]
      exact ih g (attempt + 1) _ _ (by omega) hshift_sig hshift_prev hshift_ops

/-! ## Lemmas about the dispatcher -/

/-- The write keys of a batch starting at `start` are the consecutive
indices `start, start+1, …`. -/
theorem batchWrites_keys (f : String → TranslationResult) :
    ∀ (b : List String) (start : Nat),
    (batchWrites f start b).map (fun x => x.1) = List.range' start b.length := by
  intro b
  induction b with
  | nil => intro start; simp [batchWrites]
  | cons x xs ih =>
    intro start
    rw [batchWrites]
    simp only [List.map_cons, List.length_cons, List.range'_succ]
    rw [ih (start + 1)]

/-- When the signal first turns set at the start of batch `c` (and that
batch exists), the dispatcher loop stops with the cancellation error and
the started units are exactly those of the earlier batches. -/
theorem dispatchGo_cancelled (f : String → TranslationResult) (cap : Nat) (sig : Nat → Bool)
    (hcap : 0 < cap) :
    ∀ (c : Nat) (ps : List String) (start fuel : Nat), ps.length ≤ fuel →
    sig (start + cap * c) = true →
    (∀ j, j < c → sig (start + cap * j) = false) →
    cap * c < ps.length →
    dispatchGo f cap sig fuel ps start =
      (Except.error cancelledError, List.range' start (cap * c)) := by
  intro c
  induction c with
  | zero =>
    intro ps start fuel hfuel hsig _ hlen
    simp only [Nat.mul_zero, Nat.add_zero] at hsig hlen
    obtain ⟨p, rest, rfl⟩ : ∃ p rest, ps = p :: rest := by
      cases ps with
      | nil => simp at hlen
      | cons p rest => exact ⟨p, rest, rfl⟩
    obtain ⟨g, rfl⟩ : ∃ g, fuel = g + 1 := ⟨fuel - 1, by simp at hfuel; omega⟩
    rw [dispatchGo, hsig]
    simp
  | succ c ih =>
    intro ps start fuel hfuel hsig hprev hlen
    have hcaplt : cap < ps.length := by
      have : cap ≤ cap * (c + 1) := Nat.le_mul_of_pos_right cap (Nat.succ_pos c)
      omega
    obtain ⟨p, rest, rfl⟩ : ∃ p rest, ps = p :: rest := by
      cases ps with
      | nil => simp at hcaplt
      | cons p rest => exact ⟨p, rest, rfl⟩
    obtain ⟨g, rfl⟩ : ∃ g, fuel = g + 1 := ⟨fuel - 1, by simp at hfuel; omega⟩
    have h0 : sig start = false := by simpa using hprev 0 (Nat.succ_pos c)
    rw [dispatchGo, h0]
    simp only [Bool.false_eq_true, if_false]
    have hmul : cap * (c + 1) = cap * c + cap := by ring
    have hlen2 : (p :: rest).length = rest.length + 1 := by simp
    have hfuel2 : rest.length + 1 ≤ g + 1 := by simpa using hfuel
    have hlen3 : cap * c + cap < rest.length + 1 := by
      rw [← hmul]; simpa using hlen
    have hdrop : ((p :: rest).drop cap).length = rest.length + 1 - cap := by
      rw [List.length_drop, hlen2]
    have hrec := ih ((p :: rest).drop cap) (start + cap) g
      (by rw [hdrop]; omega)
      (by have : start + cap + cap * c = start + cap * (c + 1) := by ring
          rw [this]; exact hsig)
      (by intro j hj
          have : start + cap + cap * j = start + cap * (j + 1) := by ring
          rw [this]; exact hprev (j + 1) (by omega))
      (by rw [hdrop]; omega)
    rw [hrec]
    simp only []
    have hktake : ((p :: rest).take cap).length = cap :=
      List.length_take_of_le (Nat.le_of_lt hcaplt)
    rw [batchWrites_keys, hktake]
    have : List.range' start cap ++ List.range' (start + cap) (cap * c) =
        List.range' start (cap * c + cap) := List.range'_append_1 start cap (cap * c)
    rw [this]
    have : cap * c + cap = cap * (c + 1) := by ring
    rw [this]

/-- Unfolding a write list one step. -/
theorem writeResults_cons (a : Nat × TranslationResult) (w : List (Nat × TranslationResult))
    (res : Nat → Option TranslationResult) :
    writeResults (a :: w) res =
      writeResults w (fun j => if j = a.1 then some a.2 else res j) := rfl

/-- A write list leaves indices it does not mention untouched. -/
theorem writeResults_not_mem (w : List (Nat × TranslationResult)) :
    ∀ (res : Nat → Option TranslationResult) (j : Nat),
    (∀ x ∈ w, x.1 ≠ j) → writeResults w res j = res j := by
  induction w with
  | nil => intro res j _; rfl
  | cons a w ih =>
    intro res j hj
    rw [writeResults_cons]
    rw [ih _ j (fun x hx => hj x (List.mem_cons_of_mem a hx))]
    have : j ≠ a.1 := fun h => hj a (List.mem_cons_self a w) h.symm
    simp [this]

/-- The value written for an in-range index of a batch. -/
theorem writeResults_batch_some (f : String → TranslationResult) :
    ∀ (b : List String) (start : Nat) (res : Nat → Option TranslationResult) (j : Nat)
    (t : String), start ≤ j → b[j - start]? = some t →
    writeResults (batchWrites f start b) res j = some (f t) := by
  intro b
  induction b with
  | nil => intro start res j t _ hget; simp at hget
  | cons x xs ih =>
    intro start res j t hle hget
    rw [batchWrites, writeResults_cons]
    by_cases hj : j = start
    · subst hj
      simp only [Nat.sub_self, List.getElem?_cons_zero, Option.some.injEq] at hget
      subst hget
      rw [writeResults_not_mem]
      · simp
      · intro y hy
        have hkeys := batchWrites_keys f xs (j + 1)
        have : y.1 ∈ (batchWrites f (j + 1) xs).map (fun x => x.1) :=
          List.mem_map_of_mem (fun x => x.1) hy
        rw [hkeys] at this
        have := (List.mem_range'_1).1 this
        omega
    · have hlt : start < j := Nat.lt_of_le_of_ne hle (fun h => hj h.symm)
      have hsub : j - start = (j - (start + 1)) + 1 := by omega
      rw [hsub] at hget
      simp only [List.getElem?_cons_succ] at hget
      exact ih (start + 1) _ j t (by omega) hget

/-- A batch leaves indices outside its range untouched. -/
theorem writeResults_batch_none (f : String → TranslationResult)
    (b : List String) (start : Nat) (res : Nat → Option TranslationResult) (j : Nat)
    (h : ¬(start ≤ j ∧ j - start < b.length)) :
    writeResults (batchWrites f start b) res j = res j := by
  apply writeResults_not_mem
  intro x hx
  have : x.1 ∈ (batchWrites f start b).map (fun x => x.1) :=
    List.mem_map_of_mem (fun x => x.1) hx
  rw [batchWrites_keys] at this
  have := (List.mem_range'_1).1 this
  omega

/-- Permuting a write list with distinct keys does not change the final
array: this is why the dispatcher's output is independent of the
completion order inside a batch. -/
theorem writeResults_perm {w w' : List (Nat × TranslationResult)}
    (hperm : w.Perm w') (hnodup : (w.map (fun x => x.1)).Nodup) :
    ∀ res, writeResults w res = writeResults w' res := by
  induction hperm with
  | nil => intro res; rfl
  | cons a h ih =>
    intro res
    rw [writeResults_cons, writeResults_cons]
    exact ih (by simpa using (List.nodup_cons.1 (by simpa using hnodup)).2) _
  | swap x y l =>
    intro res
    rw [writeResults_cons, writeResults_cons, writeResults_cons, writeResults_cons]
    have hxy : y.1 ≠ x.1 := by
      simp only [List.map_cons, List.nodup_cons, List.mem_cons, List.mem_map] at hnodup
      exact fun h => hnodup.1 (Or.inl h)
    have hupd : (fun j => if j = x.1 then some x.2 else if j = y.1 then some y.2 else res j)
        = (fun j => if j = y.1 then some y.2 else if j = x.1 then some x.2 else res j) := by
      funext j
      by_cases h1 : j = x.1
      · subst h1
        simp [show x.1 ≠ y.1 from fun h => hxy h.symm]
      · by_cases h2 : j = y.1 <;> simp [h1, h2, hxy]
    rw [hupd]
  | trans h1 h2 ih1 ih2 =>
    intro res
    rw [ih1 hnodup res]
    exact ih2 (by rwa [← (h1.map (fun x => x.1)).nodup_iff]) res

/-- Every batch write list produced by the loop has distinct keys. -/
theorem batchWrites_keys_nodup (f : String → TranslationResult) (b : List String) (start : Nat) :
    ((batchWrites f start b).map (fun x => x.1)).Nodup := by
  rw [batchWrites_keys]
  exact List.nodup_range' start b.length

/-- Folding the batches of a successful (never cancelled) dispatcher run
over any initial array writes exactly `f`-images of the inputs at the
positions `start, …, start + ps.length - 1` and touches nothing else. -/
theorem dispatchFold_ok_value (f : String → TranslationResult) (cap : Nat) (sig : Nat → Bool)
    (hcap : 0 < cap) :
    ∀ (fuel : Nat) (ps : List String) (start : Nat)
    (bs : List (List (Nat × TranslationResult))),
    ps.length ≤ fuel → (dispatchGo f cap sig fuel ps start).1 = Except.ok bs →
    ∀ (init : Nat → Option TranslationResult) (j : Nat),
    (bs.foldl (fun r w => writeResults w r) init) j =
      match (if start ≤ j then ps[j - start]? else none) with
      | some t => some (f t)
      | none => init j := by
  intro fuel
  induction fuel with
  | zero =>
    intro ps start bs hfuel hok init j
    have : ps = [] := List.eq_nil_of_length_eq_zero (by omega)
    subst this
    simp only [dispatchGo] at hok
    cases hok
    simp
  | succ g ih =>
    intro ps start bs hfuel hok init j
    cases ps with
    | nil =>
      simp only [dispatchGo] at hok
      cases hok
      simp
    | cons p rest =>
      rw [dispatchGo] at hok
      by_cases hsig : sig start = true
      · rw [if_pos hsig] at hok; simp at hok
      · rw [if_neg hsig] at hok
        simp only [] at hok
        revert hok
        cases hrec : (dispatchGo f cap sig g ((p :: rest).drop cap) (start + cap)).1 with
        | error e => intro hok; simp at hok
        | ok bs' =>
          intro hok
          simp only [Except.ok.injEq] at hok
          subst hok
          have hdroplen : ((p :: rest).drop cap).length ≤ g := by
            simp only [List.length_drop, List.length_cons]
            simp only [List.length_cons] at hfuel
            omega
          rw [List.foldl_cons]
          rw [ih ((p :: rest).drop cap) (start + cap) bs' hdroplen hrec _ j]
          by_cases hhi : start + cap ≤ j
          · rw [if_pos hhi]
            rw [List.getElem?_drop]
            have harith : cap + (j - (start + cap)) = j - start := by omega
            rw [harith]
            have hle : start ≤ j := by omega
            rw [if_pos hle]
            cases hget : (p :: rest)[j - start]? with
            | some t => rfl
            | none =>
              have hout : ¬(start ≤ j ∧ j - start < ((p :: rest).take cap).length) := by
                intro ⟨_, hlt⟩
                have := List.getElem?_eq_none_iff.1 hget
                rw [List.length_take] at hlt
                omega
              exact writeResults_batch_none f _ start init j hout
          · rw [if_neg hhi]
            by_cases hle : start ≤ j
            · rw [if_pos hle]
              by_cases hin : j - start < ((p :: rest).take cap).length
              · have hcaplt : j - start < cap := by
                  have := List.length_take_le cap (p :: rest)
                  omega
                cases hget : (p :: rest)[j - start]? with
                | some t =>
                  have hgett : ((p :: rest).take cap)[j - start]? = some t := by
                    rw [List.getElem?_take_of_lt hcaplt]
                    exact hget
                  exact writeResults_batch_some f _ start init j t hle hgett
                | none =>
                  have := List.getElem?_eq_none_iff.1 hget
                  rw [List.length_take] at hin
                  omega
              · have hout : ¬(start ≤ j ∧ j - start < ((p :: rest).take cap).length) := by
                  intro ⟨_, h⟩; exact hin h
                rw [writeResults_batch_none f _ start init j hout]
                have hnone : (p :: rest)[j - start]? = none := by
                  apply List.getElem?_eq_none
                  rw [List.length_take] at hin
                  omega
                rw [hnone]
            · rw [if_neg hle]
              have hout : ¬(start ≤ j ∧ j - start < ((p :: rest).take cap).length) :=
                fun ⟨h, _⟩ => hle h
              exact writeResults_batch_none f _ start init j hout

/-- Replacing every batch write list by a permutation of itself — i.e.
letting the concurrent calls of each batch complete in any order — leads
to the same final results array, as long as each batch has distinct keys. -/
theorem foldl_writeResults_perm :
    ∀ {sched bs : List (List (Nat × TranslationResult))},
    List.Forall₂ List.Perm sched bs →
    (∀ w ∈ bs, ((w.map (fun x => x.1)).Nodup)) →
    ∀ init, sched.foldl (fun r w => writeResults w r) init =
      bs.foldl (fun r w => writeResults w r) init := by
  intro sched bs h
  induction h with
  | nil => intro _ init; rfl
  | cons h1 _ ih =>
    intro hnodup init
    rw [List.foldl_cons, List.foldl_cons]
    have hhead := (writeResults_perm h1.symm
      (hnodup _ (List.mem_cons_self _ _)) init).symm
    rw [hhead]
    exact ih (fun w hw => hnodup w (List.mem_cons_of_mem _ hw)) _

/-- The length of a batch write list is the batch size. -/
theorem batchWrites_length (f : String → TranslationResult) :
    ∀ (b : List String) (start : Nat), (batchWrites f start b).length = b.length := by
  intro b
  induction b with
  | nil => intro start; rfl
  | cons x xs ih => intro start; rw [batchWrites]; simp [ih (start + 1)]

/-- With a never-set signal the dispatcher loop always succeeds. -/
theorem dispatchGo_sigNever_ok (f : String → TranslationResult) (cap : Nat) :
    ∀ (fuel : Nat) (ps : List String) (start : Nat),
    ∃ bs, (dispatchGo f cap sigNever fuel ps start).1 = Except.ok bs := by
  intro fuel
  induction fuel with
  | zero =>
    intro ps start
    cases ps with
    | nil => exact ⟨[], rfl⟩
    | cons p rest => exact ⟨[], rfl⟩
  | succ g ih =>
    intro ps start
    cases ps with
    | nil => exact ⟨[], rfl⟩
    | cons p rest =>
      obtain ⟨bs', hbs⟩ := ih ((p :: rest).drop cap) (start + cap)
      refine ⟨batchWrites f start ((p :: rest).take cap) :: bs', ?_⟩
      rw [dispatchGo]
      simp [sigNever, hbs]

/-- Characterization of the batches produced by a successful (never
cancelled) run of the dispatcher loop: batch `k` covers exactly the units
`cap * k, …` with the corresponding texts, in consecutive order. -/
theorem dispatchGo_ok_batches (f : String → TranslationResult) (cap : Nat) (sig : Nat → Bool)
    (hcap : 0 < cap) :
    ∀ (fuel : Nat) (ps : List String) (start : Nat)
    (bs : List (List (Nat × TranslationResult))),
    ps.length ≤ fuel → (dispatchGo f cap sig fuel ps start).1 = Except.ok bs →
    ∀ (k : Nat) (w : List (Nat × TranslationResult)), bs[k]? = some w →
    cap * k < ps.length ∧
      w = batchWrites f (start + cap * k) ((ps.drop (cap * k)).take cap) := by
  intro fuel
  induction fuel with
  | zero =>
    intro ps start bs hfuel hok k w hk
    have : ps = [] := List.eq_nil_of_length_eq_zero (by omega)
    subst this
    simp only [dispatchGo] at hok
    cases hok
    simp at hk
  | succ g ih =>
    intro ps start bs hfuel hok k w hk
    cases ps with
    | nil =>
      simp only [dispatchGo] at hok
      cases hok
      simp at hk
    | cons p rest =>
      rw [dispatchGo] at hok
      by_cases hsig : sig start = true
      · rw [if_pos hsig] at hok; simp at hok
      · rw [if_neg hsig] at hok
        simp only [] at hok
        revert hok
        cases hrec : (dispatchGo f cap sig g ((p :: rest).drop cap) (start + cap)).1 with
        | error e => intro hok; simp at hok
        | ok bs' =>
          intro hok
          simp only [Except.ok.injEq] at hok
          subst hok
          cases k with
          | zero =>
            simp only [List.getElem?_cons_zero, Option.some.injEq] at hk
            subst hk
            constructor
            · simp
            · simp
          | succ k =>
            simp only [List.getElem?_cons_succ] at hk
            have hdroplen : ((p :: rest).drop cap).length ≤ g := by
              simp only [List.length_drop, List.length_cons]
              simp only [List.length_cons] at hfuel
              omega
            obtain ⟨hlt, hw⟩ := ih ((p :: rest).drop cap) (start + cap) bs' hdroplen hrec k w hk
            constructor
            · simp only [List.length_drop] at hlt
              have : cap * (k + 1) = cap + cap * k := by ring
              omega
            · rw [hw, List.drop_drop]
              have h1 : cap + cap * k = cap * (k + 1) := by ring
              have h2 : start + cap + cap * k = start + cap * (k + 1) := by ring
              rw [h1, h2]

/-! ## Claim theorems -/

/-- C3: For every list of translation units and every (positive)
concurrency cap, the dispatcher returns exactly one result per input
unit, positioned at the unit's own input index — `runSchedule sched j`
is `f` applied to input `j`, and nothing is stored beyond the inputs —
for every completion order `sched` of the underlying concurrent calls
(any per-batch permutation of the performed writes); and the units are
processed in consecutive batches of at most `cap` units, batch `k`
covering the units from position `cap * k` on, each batch folded into
the results array before the next one starts. -/
theorem C3_dispatch_order_independent (f : String → TranslationResult) (ps : List String)
    (cap : Nat) (hcap : 0 < cap) :
    ∃ bs, (dispatchBatches f cap sigNever ps 0).1 = Except.ok bs ∧
      (translateParagraphs f cap sigNever ps).1 = Except.ok (runSchedule bs) ∧
      (∀ sched, List.Forall₂ List.Perm sched bs →
        ∀ j, runSchedule sched j = (ps[j]?).map f) ∧
      (∀ k w, bs[k]? = some w →
        w = batchWrites f (cap * k) ((ps.drop (cap * k)).take cap) ∧ w.length ≤ cap) := by
  obtain ⟨bs, hok⟩ := dispatchGo_sigNever_ok f cap ps.length ps 0
  have hok' : (dispatchBatches f cap sigNever ps 0).1 = Except.ok bs := hok
  refine ⟨bs, hok', ?_, ?_, ?_⟩
  · simp only [translateParagraphs]
    rw [hok']
  · intro sched hperm j
    have hnodups : ∀ w ∈ bs, (w.map (fun x => x.1)).Nodup := by
      intro w hw
      obtain ⟨k, hk⟩ := List.getElem?_of_mem hw
      obtain ⟨-, hwE⟩ := dispatchGo_ok_batches f cap sigNever hcap ps.length ps 0 bs
        le_rfl hok k w hk
      rw [hwE]
      exact batchWrites_keys_nodup f _ _
    show (sched.foldl (fun r w => writeResults w r) (fun _ => none)) j = (ps[j]?).map f
    rw [foldl_writeResults_perm hperm hnodups]
    have hval := dispatchFold_ok_value f cap sigNever hcap ps.length ps 0 bs
      le_rfl hok (fun _ => none) j
    rw [hval]
    simp only [Nat.zero_le, if_pos, Nat.sub_zero]
    cases ps[j]? <;> rfl
  · intro k w hk
    obtain ⟨hlt, hw⟩ := dispatchGo_ok_batches f cap sigNever hcap ps.length ps 0 bs
      le_rfl hok k w hk
    constructor
    · rw [hw]; rw [Nat.zero_add]
    · rw [hw, batchWrites_length]
      exact List.length_take_le cap _

/-- Witness for C3 at a concrete input: three units at cap 2, with the
first batch completing in reversed order, still yield the in-order
results. -/
theorem C3_dispatch_order_independent_witness :
    (0 : Nat) < 2 ∧
    runSchedule [[(1, exTranslate "b"), (0, exTranslate "a")], [(2, exTranslate "c")]] 0 =
      some (exTranslate "a") ∧
    runSchedule [[(1, exTranslate "b"), (0, exTranslate "a")], [(2, exTranslate "c")]] 2 =
      some (exTranslate "c") ∧
    runSchedule [[(1, exTranslate "b"), (0, exTranslate "a")], [(2, exTranslate "c")]] 3 =
      none := by
  obtain ⟨bs, hok, -, hsched, -⟩ :=
    C3_dispatch_order_independent exTranslate ["a", "b", "c"] 2 (by decide)
  have hconc : (dispatchBatches exTranslate 2 sigNever ["a", "b", "c"] 0).1 =
      Except.ok [[(0, exTranslate "a"), (1, exTranslate "b")], [(2, exTranslate "c")]] := by
    decide
  rw [hconc] at hok
  injection hok with hbs
  subst hbs
  have hperm : List.Forall₂ List.Perm
      [[(1, exTranslate "b"), (0, exTranslate "a")], [(2, exTranslate "c")]]
      [[(0, exTranslate "a"), (1, exTranslate "b")], [(2, exTranslate "c")]] :=
    List.Forall₂.cons (List.Perm.swap _ _ _)
      (List.Forall₂.cons (List.Perm.refl _) List.Forall₂.nil)
  refine ⟨by decide, ?_, ?_, ?_⟩
  · rw [hsched _ hperm 0]; decide
  · rw [hsched _ hperm 2]; decide
  · rw [hsched _ hperm 3]; decide

/-- C4: `withRetry` surfaces a non-retryable classification immediately
(no retry, no backoff sleep) — and the classifications that are
non-retryable are exactly `AUTH_ERROR` and `CANCELLED`; for runs whose
attempts all fail retryably, the sleep before the retry after attempt `a`
is the fixed 60 s rate-limit delay when that attempt was classified
`RATE_LIMIT` and the exponential `1000 * 2 ^ a` ms otherwise, and after
`maxAttempts` (default `DEFAULT_MAX_RETRIES = 3`) attempts the last
classified error is propagated. -/
theorem C4_withRetry_policy :
    DEFAULT_MAX_RETRIES = 3 ∧ RATE_LIMIT_DELAY_MS = 60000 ∧ RETRY_DELAY_MS = 1000 ∧
    (∀ s : String, (classifyError (RawError.message s)).retryable = false ↔
      ((classifyError (RawError.message s)).code = TranslationErrorCode.AUTH_ERROR ∨
       (classifyError (RawError.message s)).code = TranslationErrorCode.CANCELLED)) ∧
    (∀ (T : Type) (op : Nat → Except RawError T) (e : RawError) (n : Nat), 0 < n →
      op 0 = Except.error e → (classifyError e).retryable = false →
      withRetry op n sigNever = (Except.error (some (classifyError e)), [])) ∧
    (∀ (T : Type) (errs : Nat → RawError) (n : Nat), 0 < n →
      (∀ a, a < n → (classifyError (errs a)).retryable = true) →
      withRetry (T := T) (fun a => Except.error (errs a)) n sigNever =
        (Except.error (some (classifyError (errs (n - 1)))),
         (List.range (n - 1)).map (fun a =>
           if (classifyError (errs a)).code = TranslationErrorCode.RATE_LIMIT
           then RATE_LIMIT_DELAY_MS else RETRY_DELAY_MS * 2 ^ a))) := by
  refine ⟨rfl, rfl, rfl, ?_, ?_, ?_⟩
  · intro s
    unfold classifyError
    dsimp only
    split
    · simp
    · split
      · simp
      · split
        · simp
        · split
          · simp
          · simp
  · intro T op e n hn hop hretry
    obtain ⟨m, rfl⟩ : ∃ m, n = m + 1 := ⟨n - 1, by omega⟩
    rw [withRetry, withRetryGo]
    simp only [sigNever, Bool.false_eq_true, if_false]
    rw [hop]
    simp [hretry]
  · intro T errs n hn hall
    rw [withRetry]
    rw [withRetryGo_all_retryable errs n hall n 0 none [] (by omega) (by omega)]
    rw [List.range_eq_range']
    simp

/-- Witness for C4 at concrete inputs: an authentication failure is
surfaced at once with no sleeps, and three rate-limited attempts sleep
the fixed 60 s delay twice and surface the rate-limit error. -/
theorem C4_withRetry_policy_witness :
    withRetry (fun _ => (Except.error (RawError.message "401") : Except RawError Nat)) 3 sigNever =
      (Except.error (some (classifyError (RawError.message "401"))), []) ∧
    withRetry (fun _ => (Except.error (RawError.message "rate limit") : Except RawError Nat)) 3
        sigNever =
      (Except.error (some (classifyError (RawError.message "rate limit"))), [60000, 60000]) := by
  constructor
  · exact C4_withRetry_policy.2.2.2.2.1 Nat
      (fun _ => Except.error (RawError.message "401")) (RawError.message "401") 3
      (by decide) rfl (by decide)
  · have h := C4_withRetry_policy.2.2.2.2.2 Nat (fun _ => RawError.message "rate limit") 3
      (by decide)
      (fun _ _ => show (classifyError (RawError.message "rate limit")).retryable = true by decide)
    rw [h]
    decide

/-- C5: the shared cancellation signal is checked before each dispatch
batch and before each retry attempt; when it first turns set at batch `c`
the dispatcher starts no further units (the started units are exactly the
`cap * c` units of the earlier batches) and the whole dispatch returns the
`CANCELLED`-typed error instead of a partial result; likewise a retry run
whose signal is first set at attempt `a` (all earlier attempts failing
retryably) returns the `CANCELLED`-typed error. -/
theorem C5_cancellation_short_circuits :
    cancelledError.code = TranslationErrorCode.CANCELLED ∧
    (∀ (f : String → TranslationResult) (cap : Nat) (sig : Nat → Bool) (ps : List String)
      (c : Nat), 0 < cap → sig (cap * c) = true → (∀ j, j < c → sig (cap * j) = false) →
      cap * c < ps.length →
      dispatchBatches f cap sig ps 0 = (Except.error cancelledError, List.range (cap * c)) ∧
      (translateParagraphs f cap sig ps).1 = Except.error cancelledError) ∧
    (∀ (T : Type) (op : Nat → Except RawError T) (n : Nat) (sig : Nat → Bool) (a : Nat),
      a < n → sig a = true → (∀ b, b < a → sig b = false) →
      (∀ b, b < a → ∃ e, op b = Except.error e ∧ (classifyError e).retryable = true) →
      (withRetry op n sig).1 = Except.error (some cancelledError)) := by
  refine ⟨rfl, ?_, ?_⟩
  · intro f cap sig ps c hcap hsig hprev hlen
    have hd : dispatchBatches f cap sig ps 0 =
        (Except.error cancelledError, List.range' 0 (cap * c)) := by
      refine dispatchGo_cancelled f cap sig hcap c ps 0 ps.length le_rfl ?_ ?_ hlen
      · rw [Nat.zero_add]; exact hsig
      · intro j hj; rw [Nat.zero_add]; exact hprev j hj
    constructor
    · rw [hd, List.range_eq_range']
    · simp only [translateParagraphs]
      rw [show (dispatchBatches f cap sig ps 0).1 = Except.error cancelledError from by
        rw [hd]]
  · intro T op n sig a ha hsig hprev hops
    rw [withRetry]
    refine withRetryGo_cancelled op n sig a n 0 none [] ha ?_ ?_ ?_
    · rw [Nat.zero_add]; exact hsig
    · intro b hb; rw [Nat.zero_add]; exact hprev b hb
    · intro b hb; rw [Nat.zero_add]; exact hops b hb

/-- Witness for C5 at concrete inputs: with cap 2 and the signal set from
batch start 2 onward, only units 0 and 1 are started and the result is
the cancellation error; a retry run whose signal sets at attempt 1 is
cancelled as well. -/
theorem C5_cancellation_short_circuits_witness :
    dispatchBatches exTranslate 2 (fun n => decide (2 ≤ n)) ["a", "b", "c"] 0 =
      (Except.error cancelledError, [0, 1]) ∧
    (translateParagraphs exTranslate 2 (fun n => decide (2 ≤ n)) ["a", "b", "c"]).1 =
      Except.error cancelledError ∧
    (withRetry (fun _ => (Except.error (RawError.message "boom") : Except RawError Nat)) 3
      (fun n => decide (1 ≤ n))).1 = Except.error (some cancelledError) := by
  obtain ⟨h1, h2⟩ := C5_cancellation_short_circuits.2.1 exTranslate 2
    (fun n => decide (2 ≤ n)) ["a", "b", "c"] 1 (by decide) (by decide) (by decide) (by decide)
  refine ⟨?_, h2, ?_⟩
  · rw [h1]; decide
  · exact C5_cancellation_short_circuits.2.2 Nat
      (fun _ => Except.error (RawError.message "boom")) 3 (fun n => decide (1 ≤ n)) 1
      (by decide) (by decide) (by decide)
      (fun b _ => ⟨RawError.message "boom", rfl, by decide⟩)

/-! ## Lemmas about the reconciliation planner -/

/-- A hash with a matching prior entry is found by the lookup. -/
theorem hashLookup_isSome (existing : List ParagraphMapping) (h : String) :
    ∀ (acc : Option ParagraphMapping),
    ((∃ m ∈ existing, m.sourceHash = h) ∨ acc.isSome = true) →
    (existing.foldl (fun acc p => if p.sourceHash = h then some p else acc) acc).isSome = true := by
  induction existing with
  | nil =>
    intro acc hacc
    rcases hacc with ⟨m, hm, _⟩ | hsome
    · simp at hm
    · simpa using hsome
  | cons p rest ih =>
    intro acc hacc
    rw [List.foldl_cons]
    by_cases hp : p.sourceHash = h
    · exact ih _ (Or.inr (by simp [hp]))
    · rcases hacc with ⟨m, hm, hmh⟩ | hsome
      · rcases List.mem_cons.1 hm with rfl | hm'
        · exact absurd hmh hp
        · exact ih _ (Or.inl ⟨m, hm', hmh⟩)
      · exact ih _ (Or.inr (by simp [hp]; simpa using hsome))

/-- When every segment is either code or has a cached prior entry, the
planner queues nothing for translation. -/
theorem classifySegments_fst_empty (existing : List ParagraphMapping) :
    ∀ (segs : List ParsedParagraph) (i : Nat),
    (∀ p ∈ segs, p.type = ParagraphType.code ∨ (hashLookup existing p.hash).isSome = true) →
    (classifySegments existing segs i).1 = [] := by
  intro segs
  induction segs with
  | nil => intro i _; rfl
  | cons p rest ih =>
    intro i hall
    rw [classifySegments]
    rcases hall p (List.mem_cons_self p rest) with hcode | hsome
    · rw [if_pos hcode]
      exact ih (i + 1) (fun q hq => hall q (List.mem_cons_of_mem p hq))
    · by_cases hcode : p.type = ParagraphType.code
      · rw [if_pos hcode]
        exact ih (i + 1) (fun q hq => hall q (List.mem_cons_of_mem p hq))
      · rw [if_neg hcode]
        obtain ⟨e, he⟩ := Option.isSome_iff_exists.1 hsome
        rw [he]
        exact ih (i + 1) (fun q hq => hall q (List.mem_cons_of_mem p hq))

/-- Every queued translation unit is a non-code segment with no cached
entry, tagged with its absolute position. -/
theorem classifySegments_fst_mem (existing : List ParagraphMapping) :
    ∀ (segs : List ParsedParagraph) (i : Nat) (j : Nat) (q : ParsedParagraph),
    (j, q) ∈ (classifySegments existing segs i).1 →
    ∃ k, segs[k]? = some q ∧ j = i + k ∧ q.type ≠ ParagraphType.code ∧
      hashLookup existing q.hash = none := by
  intro segs
  induction segs with
  | nil => intro i j q hmem; simp [classifySegments] at hmem
  | cons p rest ih =>
    intro i j q hmem
    rw [classifySegments] at hmem
    by_cases hcode : p.type = ParagraphType.code
    · rw [if_pos hcode] at hmem
      obtain ⟨k, hk, hj, hq, hl⟩ := ih (i + 1) j q hmem
      exact ⟨k + 1, by simpa using hk, by omega, hq, hl⟩
    · rw [if_neg hcode] at hmem
      cases hlook : hashLookup existing p.hash with
      | some e =>
        rw [hlook] at hmem
        obtain ⟨k, hk, hj, hq, hl⟩ := ih (i + 1) j q hmem
        exact ⟨k + 1, by simpa using hk, by omega, hq, hl⟩
      | none =>
        rw [hlook] at hmem
        rcases List.mem_cons.1 hmem with heq | hmem'
        · obtain ⟨rfl, rfl⟩ := Prod.mk.injEq .. ▸ (Prod.ext_iff.1 heq)
          exact ⟨0, by simp, by omega, hcode, hlook⟩
        · obtain ⟨k, hk, hj, hq, hl⟩ := ih (i + 1) j q hmem'
          exact ⟨k + 1, by simpa using hk, by omega, hq, hl⟩

/-- The planner's result list is positionally aligned with the segments:
entry `k` is the pass-through, cached, or pending entry of segment `k`. -/
theorem classifySegments_snd_get (existing : List ParagraphMapping) :
    ∀ (segs : List ParsedParagraph) (i : Nat) (k : Nat),
    (classifySegments existing segs i).2[k]? =
      (segs[k]?).map (fun p =>
        if p.type = ParagraphType.code then passThroughEntry p
        else match hashLookup existing p.hash with
          | some e => e
          | none => pendingEntry p) := by
  intro segs
  induction segs with
  | nil => intro i k; simp [classifySegments]
  | cons p rest ih =>
    intro i k
    rw [classifySegments]
    by_cases hcode : p.type = ParagraphType.code
    · rw [if_pos hcode]
      cases k with
      | zero => simp [hcode]
      | succ k => simpa using ih (i + 1) k
    · rw [if_neg hcode]
      cases hlook : hashLookup existing p.hash with
      | some e =>
        cases k with
        | zero => simp [hcode, hlook]
        | succ k => simpa using ih (i + 1) k
      | none =>
        cases k with
        | zero => simp [hcode, hlook]
        | succ k => simpa using ih (i + 1) k

/-- The planner produces exactly one mapping entry per segment. -/
theorem classifySegments_snd_length (existing : List ParagraphMapping) :
    ∀ (segs : List ParsedParagraph) (i : Nat),
    (classifySegments existing segs i).2.length = segs.length := by
  intro segs
  induction segs with
  | nil => intro i; rfl
  | cons p rest ih =>
    intro i
    rw [classifySegments]
    by_cases hcode : p.type = ParagraphType.code
    · rw [if_pos hcode]; simp [ih (i + 1)]
    · rw [if_neg hcode]
      cases hlook : hashLookup existing p.hash with
      | some e => simp [ih (i + 1)]
      | none => simp [ih (i + 1)]

/-- The fill loop leaves positions it does not target unchanged. -/
theorem fillLoop_untouched (i : Nat) :
    ∀ (pairs : List ((Nat × ParsedParagraph) × TranslationResult))
    (paras : List ParagraphMapping),
    (∀ x ∈ pairs, x.1.1 ≠ i) →
    (pairs.foldl
      (fun acc ur =>
        match acc[ur.1.1]? with
        | some p => acc.set ur.1.1 { p with translatedContent := ur.2.translatedText }
        | none => acc)
      paras)[i]? = paras[i]? := by
  intro pairs
  induction pairs with
  | nil => intro paras _; rfl
  | cons x rest ih =>
    intro paras hne
    rw [List.foldl_cons]
    have hx : x.1.1 ≠ i := hne x (List.mem_cons_self x rest)
    have hrest : ∀ y ∈ rest, y.1.1 ≠ i := fun y hy => hne y (List.mem_cons_of_mem x hy)
    cases hget : paras[x.1.1]? with
    | some p =>
      rw [ih _ hrest]
      exact List.getElem?_set_ne hx
    | none =>
      exact ih _ hrest

/-- C1: when every segment of the document has an entry with a matching
source hash in the supplied prior mapping, the forward pass hands zero
translation units to the dispatcher (so the translate capability is never
invoked), reports every segment as reused and none as changed, and
reports no token usage. -/
theorem C1_unchanged_document_no_dispatch (hashF : String → String)
    (f : String → TranslationResult) (cap : Nat) (sig : Nat → Bool) (content : String)
    (existing : List ParagraphMapping)
    (hall : ∀ p ∈ splitIntoParagraphsWithHash hashF content,
      ∃ e ∈ existing, e.sourceHash = p.hash) :
    (translateIncremental hashF f cap sig content existing).2 = [] ∧
    ∃ r, (translateIncremental hashF f cap sig content existing).1 = Except.ok r ∧
      r.changedParagraphs = 0 ∧
      r.reusedParagraphs = (splitIntoParagraphsWithHash hashF content).length ∧
      r.tokenUsage = none := by
  have hplan : (classifySegments existing (splitIntoParagraphsWithHash hashF content) 0).1 = [] :=
    classifySegments_fst_empty existing _ 0
      (fun p hp => Or.inr (hashLookup_isSome existing p.hash none (Or.inl (hall p hp))))
  constructor
  · simp only [translateIncremental]
    rw [hplan]
    simp
  · simp only [translateIncremental]
    rw [hplan]
    simp

/-- Witness for C1: a two-paragraph document whose hashes both appear in
the prior mapping dispatches nothing and reuses both paragraphs. -/
theorem C1_unchanged_document_no_dispatch_witness :
    (translateIncremental exHash exTranslate 3 sigNever "hello\n\nworld"
      [⟨"hello", "bonjour", "#hello"⟩, ⟨"world", "monde", "#world"⟩]).2 = [] ∧
    ∃ r, (translateIncremental exHash exTranslate 3 sigNever "hello\n\nworld"
        [⟨"hello", "bonjour", "#hello"⟩, ⟨"world", "monde", "#world"⟩]).1 = Except.ok r ∧
      r.changedParagraphs = 0 ∧ r.reusedParagraphs = 2 ∧ r.tokenUsage = none := by
  obtain ⟨h1, r, h2, h3, h4, h5⟩ := C1_unchanged_document_no_dispatch exHash exTranslate 3
    sigNever "hello\n\nworld" [⟨"hello", "bonjour", "#hello"⟩, ⟨"world", "monde", "#world"⟩]
    (by decide)
  exact ⟨h1, r, h2, h3, h4.trans (by decide), h5⟩

/-! ## Lemmas about the segmenter -/

/-- One scanner step only ever emits text or code segments. -/
theorem scanStep_types (hashF : String → String) (lines : List String) (s : ScanState)
    (i : Nat) (line : String)
    (hs : ∀ p ∈ s.paragraphs, p.type ≠ ParagraphType.frontmatter) :
    ∀ p ∈ (scanStep hashF lines s i line).paragraphs, p.type ≠ ParagraphType.frontmatter := by
  intro p hp
  simp only [scanStep, inCodeStep] at hp
  split_ifs at hp <;>
    (try simp only [List.mem_append, List.mem_singleton] at hp) <;>
    first
      | exact hs p hp
      | (rcases hp with hp | rfl
         · exact hs p hp
         · simp)

/-- The whole scan preserves the text-or-code invariant. -/
theorem scanList_types (hashF : String → String) (lines : List String) :
    ∀ (pairs : List (Nat × String)) (s : ScanState),
    (∀ p ∈ s.paragraphs, p.type ≠ ParagraphType.frontmatter) →
    ∀ p ∈ (scanList hashF lines pairs s).paragraphs, p.type ≠ ParagraphType.frontmatter := by
  intro pairs
  induction pairs with
  | nil => intro s hs; exact hs
  | cons il rest ih =>
    intro s hs
    rw [scanList]
    exact ih _ (scanStep_types hashF lines s il.1 il.2 hs)

/-- Every segment produced by the segmenter is text or code. -/
theorem splitIntoParagraphsWithHash_types (hashF : String → String) (content : String) :
    ∀ p ∈ splitIntoParagraphsWithHash hashF content,
      p.type = ParagraphType.text ∨ p.type = ParagraphType.code := by
  intro p hp
  have hne : p.type ≠ ParagraphType.frontmatter := by
    simp only [splitIntoParagraphsWithHash, finishScan] at hp
    have hscan := scanList_types hashF (jsSplitLines content)
      (jsSplitLines content).enum ⟨[], [], 0, false, 0⟩ (by simp)
    by_cases hcp : (scanList hashF (jsSplitLines content) (jsSplitLines content).enum
        ⟨[], [], 0, false, 0⟩).currentParagraph.length > 0
    · rw [if_pos hcp] at hp
      rcases List.mem_append.1 hp with hp | hp
      · exact hscan p hp
      · rw [List.mem_singleton] at hp
        subst hp
        show (if _ then ParagraphType.code else ParagraphType.text) ≠ _
        split <;> simp
    · rw [if_neg hcp] at hp
      exact hscan p hp
  cases htype : p.type with
  | text => exact Or.inl rfl
  | code => exact Or.inr rfl
  | frontmatter => exact absurd htype hne

/-- C10: every segment produced by `splitIntoParagraphsWithHash` has type
text or code — the segmenter never emits a frontmatter segment — so a
leading YAML front-matter block delimited by `---` lines is segmented as
ordinary text paragraphs subject to blank-line splitting (shown on a
concrete front-matter document). -/
theorem C10_no_frontmatter_segment (hashF : String → String) (content : String) :
    (∀ p ∈ splitIntoParagraphsWithHash hashF content,
      p.type ≠ ParagraphType.frontmatter ∧
        (p.type = ParagraphType.text ∨ p.type = ParagraphType.code)) ∧
    (splitIntoParagraphsWithHash exHash "---\ntitle: x\n---\n\nhello").map
        (fun p => (p.content, p.type)) =
      [("---\ntitle: x\n---", ParagraphType.text), ("hello", ParagraphType.text)] := by
  constructor
  · intro p hp
    have h := splitIntoParagraphsWithHash_types hashF content p hp
    refine ⟨?_, h⟩
    rcases h with h | h <;> rw [h] <;> simp
  · decide

/-- Witness for C10: the first segment of the concrete front-matter
document is a text segment (via the universal part of the theorem). -/
theorem C10_no_frontmatter_segment_witness :
    (⟨"---\ntitle: x\n---", ParagraphType.text, "#---\ntitle: x\n---", 0, 2⟩ :
        ParsedParagraph).type ≠ ParagraphType.frontmatter ∧
    ((⟨"---\ntitle: x\n---", ParagraphType.text, "#---\ntitle: x\n---", 0, 2⟩ :
        ParsedParagraph).type = ParagraphType.text ∨
      (⟨"---\ntitle: x\n---", ParagraphType.text, "#---\ntitle: x\n---", 0, 2⟩ :
        ParsedParagraph).type = ParagraphType.code) :=
  (C10_no_frontmatter_segment exHash "---\ntitle: x\n---\n\nhello").1
    ⟨"---\ntitle: x\n---", ParagraphType.text, "#---\ntitle: x\n---", 0, 2⟩ (by decide)

/-- C2: code segments (and frontmatter segments, which in fact never
occur) are never handed to the translate capability by the forward path —
no translation unit carries their index — and their mapping entry in the
result is the pass-through identity entry with
`translatedContent = sourceContent = ` the segment content. -/
theorem C2_code_frontmatter_pass_through (hashF : String → String)
    (f : String → TranslationResult) (cap : Nat) (sig : Nat → Bool) (content : String)
    (existing : List ParagraphMapping) (i : Nat) (p : ParsedParagraph)
    (hseg : (splitIntoParagraphsWithHash hashF content)[i]? = some p)
    (htype : p.type = ParagraphType.code ∨ p.type = ParagraphType.frontmatter) :
    (∀ u ∈ (translateIncremental hashF f cap sig content existing).2, u.1 ≠ i) ∧
    (∀ r, (translateIncremental hashF f cap sig content existing).1 = Except.ok r →
      r.paragraphs[i]? = some ⟨p.content, p.content, p.hash⟩) := by
  have hcode : p.type = ParagraphType.code := by
    rcases htype with h | h
    · exact h
    · rcases splitIntoParagraphsWithHash_types hashF content p (List.getElem?_mem hseg)
        with h' | h' <;> rw [h'] at h <;> cases h
  have hne : ∀ x ∈ (classifySegments existing (splitIntoParagraphsWithHash hashF content) 0).1,
      x.1 ≠ i := by
    intro x hx hxi
    obtain ⟨k, hk, hkj, hktype, -⟩ := classifySegments_fst_mem existing
      (splitIntoParagraphsWithHash hashF content) 0 x.1 x.2 (by simpa using hx)
    have hki : k = i := by omega
    rw [hki, hseg] at hk
    cases hk
    exact hktype hcode
  constructor
  · intro u hu
    simp only [translateIncremental] at hu
    obtain ⟨x, hx, hxu⟩ := List.mem_map.1 hu
    have := hne x hx
    rw [← hxu]
    exact this
  · intro r hr
    have hsnd : (classifySegments existing (splitIntoParagraphsWithHash hashF content) 0).2[i]? =
        some (passThroughEntry p) := by
      rw [classifySegments_snd_get, hseg]
      simp [hcode]
    simp only [translateIncremental] at hr
    by_cases hlen :
        (classifySegments existing (splitIntoParagraphsWithHash hashF content) 0).1.length = 0
    · rw [if_pos hlen] at hr
      injection hr with hr
      subst hr
      exact hsnd
    · rw [if_neg hlen] at hr
      revert hr
      cases hdisp : (translateParagraphs f cap sig
          ((classifySegments existing (splitIntoParagraphsWithHash hashF content) 0).1.map
            (fun u => u.2.content))).1 with
      | error e => intro hr; cases hr
      | ok resFun =>
        intro hr
        injection hr with hr
        subst hr
        show (fillLoop _ _ _)[i]? = _
        rw [fillLoop]
        rw [fillLoop_untouched i _ _
          (fun x hx => hne x.1 (List.of_mem_zip hx).1)]
        exact hsnd

/-- Witness for C2: in a document with one text and one code paragraph
(and no cache), the only dispatched unit is the text paragraph at index
0, and the code segment's result entry is the pass-through identity. -/
theorem C2_code_frontmatter_pass_through_witness :
    ((0 : Nat), "a").1 ≠ 1 ∧
    (⟨"T:a\n\n```js\nx\n```",
        [⟨"a", "T:a", "#a"⟩, ⟨"```js\nx\n```", "```js\nx\n```", "#```js\nx\n```"⟩],
        1, 1, some ⟨1, 2, 3⟩⟩ : IncrementalTranslationResult).paragraphs[1]? =
      some ⟨"```js\nx\n```", "```js\nx\n```", "#```js\nx\n```"⟩ := by
  have h := C2_code_frontmatter_pass_through exHash exTranslate 3 sigNever
    "a\n\n```js\nx\n```" [] 1 ⟨"```js\nx\n```", ParagraphType.code, "#```js\nx\n```", 2, 4⟩
    (by decide) (Or.inl rfl)
  constructor
  · exact h.1 (0, "a") (by decide)
  · exact h.2 _ (by decide)

/-- On a successful dispatch the results array holds `f` of each input
at the input's own index (and nothing beyond). -/
theorem translateParagraphs_ok_value (f : String → TranslationResult) (cap : Nat)
    (sig : Nat → Bool) (ps : List String) (resFun : Nat → Option TranslationResult)
    (hcap : 0 < cap) (h : (translateParagraphs f cap sig ps).1 = Except.ok resFun) :
    ∀ k, resFun k = (ps[k]?).map f := by
  intro k
  simp only [translateParagraphs] at h
  revert h
  cases hd : (dispatchBatches f cap sig ps 0).1 with
  | error e => intro h; cases h
  | ok bs =>
    intro h
    injection h with h
    subst h
    show (bs.foldl (fun r w => writeResults w r) (fun _ => none)) k = (ps[k]?).map f
    rw [dispatchFold_ok_value f cap sig hcap ps.length ps 0 bs le_rfl hd (fun _ => none) k]
    simp only [Nat.zero_le, if_pos, Nat.sub_zero]
    cases ps[k]? <;> rfl

/-- Materializing the results array over the input indices gives the
`f`-image of the inputs. -/
theorem results_list_eq_map (f : String → TranslationResult) (ps : List String)
    (resFun : Nat → Option TranslationResult) (h : ∀ k, resFun k = (ps[k]?).map f) :
    (List.range ps.length).map (fun k => (resFun k).getD defaultTranslationResult) =
      ps.map f := by
  apply List.ext_getElem?
  intro i
  rw [List.getElem?_map, List.getElem?_map]
  by_cases hi : i < ps.length
  · rw [List.getElem?_range hi]
    have ht : ps[i]? = some ps[i] := List.getElem?_eq_getElem hi
    rw [ht]
    simp [h i, ht]
  · rw [List.getElem?_eq_none (l := List.range ps.length) (by simpa using Nat.le_of_not_lt hi)]
    rw [List.getElem?_eq_none (Nat.le_of_not_lt hi)]
    rfl

/-- C9 (amended): the token usage returned by a successful
`translateIncremental` run is the componentwise sum of the usages
reported by the dispatched units, and the field is absent exactly when
that sum's `total` component is zero — which includes every full cache
hit (no dispatched units), but also runs whose dispatched units report
no usage. -/
theorem C9_token_usage_summation (hashF : String → String) (f : String → TranslationResult)
    (cap : Nat) (sig : Nat → Bool) (content : String) (existing : List ParagraphMapping)
    (hcap : 0 < cap) :
    (∀ r, (translateIncremental hashF f cap sig content existing).1 = Except.ok r →
      r.tokenUsage =
        (if (sumUsages (((translateIncremental hashF f cap sig content existing).2).map
            (fun u => f u.2))).total > 0
         then some (sumUsages (((translateIncremental hashF f cap sig content existing).2).map
            (fun u => f u.2)))
         else none)) ∧
    ((translateIncremental hashF f cap sig content existing).2 = [] →
      ∀ r, (translateIncremental hashF f cap sig content existing).1 = Except.ok r →
        r.tokenUsage = none) := by
  have hmapmap : ((translateIncremental hashF f cap sig content existing).2).map
      (fun u => f u.2) =
      ((classifySegments existing (splitIntoParagraphsWithHash hashF content) 0).1.map
        (fun u => u.2.content)).map f := by
    simp only [translateIncremental]
    rw [List.map_map, List.map_map]
    rfl
  have hmain : ∀ r, (translateIncremental hashF f cap sig content existing).1 = Except.ok r →
      r.tokenUsage =
        (if (sumUsages (((translateIncremental hashF f cap sig content existing).2).map
            (fun u => f u.2))).total > 0
         then some (sumUsages (((translateIncremental hashF f cap sig content existing).2).map
            (fun u => f u.2)))
         else none) := by
    intro r hr
    rw [hmapmap]
    simp only [translateIncremental] at hr
    by_cases hlen :
        (classifySegments existing (splitIntoParagraphsWithHash hashF content) 0).1.length = 0
    · rw [if_pos hlen] at hr
      injection hr with hr
      subst hr
      have hnil : (classifySegments existing (splitIntoParagraphsWithHash hashF content) 0).1
          = [] := List.eq_nil_of_length_eq_zero hlen
      rw [hnil]
      dsimp only
      rfl
    · rw [if_neg hlen] at hr
      revert hr
      cases hdisp : (translateParagraphs f cap sig
          ((classifySegments existing (splitIntoParagraphsWithHash hashF content) 0).1.map
            (fun u => u.2.content))).1 with
      | error e => intro hr; cases hr
      | ok resFun =>
        intro hr
        injection hr with hr
        subst hr
        dsimp only
        rw [results_list_eq_map f _ resFun
            (translateParagraphs_ok_value f cap sig _ resFun hcap hdisp)]
  refine ⟨hmain, ?_⟩
  intro hunits r hr
  rw [hmain r hr, hunits]
  rfl

/-- Counterexample to C9 as stated: here one unit is dispatched (the unit
list is nonempty), yet the returned `tokenUsage` field is absent, because
the dispatched unit reported no usage and the accumulated total stayed
zero — "absent exactly when no units were dispatched" fails. -/
theorem C9_token_usage_absent_despite_dispatch :
    (translateIncremental exHash exTranslateNoUsage 3 sigNever "hello" []).2 =
      [(0, "hello")] ∧
    (translateIncremental exHash exTranslateNoUsage 3 sigNever "hello" []).1 =
      Except.ok ⟨"T:hello", [⟨"hello", "T:hello", "#hello"⟩], 1, 0, none⟩ := by
  decide

/-- Witness for C9 (amended) at a concrete input: two dispatched units
with usage `(5, 10, 15)` each sum to `(10, 20, 30)` and the field is
present. -/
theorem C9_token_usage_summation_witness :
    (⟨"T:hello\n\nT:world",
        [⟨"hello", "T:hello", "#hello"⟩, ⟨"world", "T:world", "#world"⟩],
        2, 0, some ⟨10, 20, 30⟩⟩ : IncrementalTranslationResult).tokenUsage =
      some ⟨10, 20, 30⟩ := by
  have h := (C9_token_usage_summation exHash exTranslate 3 sigNever "hello\n\nworld" []
    (by decide)).1
    ⟨"T:hello\n\nT:world",
      [⟨"hello", "T:hello", "#hello"⟩, ⟨"world", "T:world", "#world"⟩],
      2, 0, some ⟨10, 20, 30⟩⟩ (by decide)
  rw [h]
  decide

/-! ## Lemmas about the reverse reconciler -/

/-- When the edited paragraphs coincide positionally with the saved
translated contents, no index is marked modified. -/
theorem computeModifiedIndices_eq_nil (saved : List ParagraphMapping) :
    computeModifiedIndices (saved.map (fun p => p.translatedContent)) saved = [] := by
  unfold computeModifiedIndices
  rw [List.filter_eq_nil_iff]
  intro i hi
  rw [List.mem_range, List.length_map] at hi
  unfold isModified
  have hs : saved[i]? = some saved[i] := List.getElem?_eq_getElem hi
  rw [hs]
  simp [List.getD_eq_getElem?_getD, List.getElem?_map, hs]

/-- C7: on an edited translated document whose paragraphs are positionally
identical to the prior mapping's translated contents, `reverseTranslate`
marks nothing modified, dispatches nothing (the translate capability is
never called), returns the prior mapping itself unchanged, and rebuilds
the source as the join of the prior source contents. -/
theorem C7_reverse_unchanged_document (hashF : String → String)
    (f : String → TranslationResult) (cap : Nat) (sig : Nat → Bool) (c : String)
    (saved : List ParagraphMapping)
    (h : splitIntoParagraphs c = saved.map (fun p => p.translatedContent)) :
    reverseTranslate hashF f cap sig c saved =
      (Except.ok ⟨[], [], joinParagraphs (saved.map (fun p => p.sourceContent)), saved⟩,
       []) := by
  have hM : computeModifiedIndices (splitIntoParagraphs c) saved = [] := by
    rw [h]
    exact computeModifiedIndices_eq_nil saved
  simp only [reverseTranslate]
  rw [hM]
  simp

/-- Witness for C7: a two-paragraph edited document that matches the
saved mapping byte for byte is reproduced from the saved source
contents with no dispatch. -/
theorem C7_reverse_unchanged_document_witness :
    reverseTranslate exHash exTranslate 3 sigNever "bonjour\n\nmonde"
      [⟨"hello", "bonjour", "#hello"⟩, ⟨"world", "monde", "#world"⟩] =
      (Except.ok ⟨[], [], "hello\n\nworld",
        [⟨"hello", "bonjour", "#hello"⟩, ⟨"world", "monde", "#world"⟩]⟩, []) := by
  have h := C7_reverse_unchanged_document exHash exTranslate 3 sigNever "bonjour\n\nmonde"
    [⟨"hello", "bonjour", "#hello"⟩, ⟨"world", "monde", "#world"⟩] (by decide)
  rw [h]
  decide

/-- On fence-free input the scanner is exactly the blank-line block
grouping: the contents of the segments it produces (including the final
flush) are the maximal runs of non-blank lines, each joined by a newline,
continuing from the pending state. -/
theorem scan_no_fence (hashF : String → String) (lines : List String) :
    ∀ (pairs : List (Nat × String)) (s : ScanState),
    (∀ x ∈ pairs, jsStartsWith (jsTrim x.2) "```" = false) →
    s.inCodeBlock = false →
    (finishScan hashF lines (scanList hashF lines pairs s)).map (fun p => p.content) =
      s.paragraphs.map (fun p => p.content) ++
        (specBlocksAux s.currentParagraph (pairs.map (fun x => x.2))).map
          (String.intercalate "\n") := by
  intro pairs
  induction pairs with
  | nil =>
    intro s hf hcode
    simp only [scanList, List.map_nil, specBlocksAux]
    rw [finishScan]
    by_cases hcp : s.currentParagraph.length > 0
    · rw [if_pos hcp]
      have hne : s.currentParagraph.isEmpty = false := by
        cases h : s.currentParagraph with
        | nil => rw [h] at hcp; simp at hcp
        | cons a l => simp
      rw [hne]
      simp [hcode]
    · rw [if_neg hcp]
      have hemp : s.currentParagraph.isEmpty = true := by
        cases h : s.currentParagraph with
        | nil => simp
        | cons a l => rw [h] at hcp; simp at hcp
      rw [hemp]
      simp
  | cons x rest ih =>
    intro s hf hcode
    obtain ⟨i, line⟩ := x
    rw [scanList]
    have hfl : jsStartsWith (jsTrim line) "```" = false := hf (i, line) (List.mem_cons_self _ _)
    have hfr : ∀ y ∈ rest, jsStartsWith (jsTrim y.2) "```" = false :=
      fun y hy => hf y (List.mem_cons_of_mem _ hy)
    simp only [scanStep, hfl, hcode, Bool.false_eq_true, if_false]
    simp only [List.map_cons]
    by_cases hblank : jsTrim line = ""
    · rw [if_pos hblank]
      by_cases hcp : s.currentParagraph.length > 0
      · rw [if_pos hcp]
        have hne : s.currentParagraph.isEmpty = false := by
          cases h : s.currentParagraph with
          | nil => rw [h] at hcp; simp at hcp
          | cons a l => simp
        rw [ih _ hfr (by simpa using hcode)]
        rw [specBlocksAux, if_pos hblank, hne]
        simp
      · rw [if_neg hcp]
        have hemp : s.currentParagraph.isEmpty = true := by
          cases h : s.currentParagraph with
          | nil => simp
          | cons a l => rw [h] at hcp; simp at hcp
        rw [ih _ hfr (by simpa using hcode)]
        rw [specBlocksAux, if_pos hblank, hemp]
        have hnil : s.currentParagraph = [] := by
          cases h : s.currentParagraph with
          | nil => rfl
          | cons a l => rw [h] at hemp; simp at hemp
        simp [hnil]
    · rw [if_neg hblank]
      by_cases hcp : s.currentParagraph.length = 0
      · rw [if_pos hcp]
        rw [ih _ hfr (by simpa using hcode)]
        rw [specBlocksAux, if_neg hblank]
      · rw [if_neg hcp]
        rw [ih _ hfr (by simpa using hcode)]
        rw [specBlocksAux, if_neg hblank]

/-- C6 (amended): for documents that contain no code-fence line (no line
whose trimmed form begins with three backticks), joining the segments in
order with the fixed separator reproduces the document modulo the
spec's whitespace normalization at segment boundaries: it equals the
document with each blank-line run collapsed to one separator and
leading/trailing blank lines dropped. (Unrestricted, the claim fails: a
fence adjacent to text gains a separator that no blank-line
normalization of the original document produces — see the
counterexample.) -/
theorem C6_roundtrip_modulo_blank_lines (hashF : String → String) (content : String)
    (hnofence : ∀ l ∈ jsSplitLines content, jsStartsWith (jsTrim l) "```" = false) :
    joinParsedParagraphs (splitIntoParagraphsWithHash hashF content) =
      specNormalizeBlankLines content := by
  show String.intercalate "\n\n"
      ((splitIntoParagraphsWithHash hashF content).map (fun p => p.content)) = _
  rw [show splitIntoParagraphsWithHash hashF content =
      finishScan hashF (jsSplitLines content)
        (scanList hashF (jsSplitLines content) (jsSplitLines content).enum
          ⟨[], [], 0, false, 0⟩) from rfl]
  rw [scan_no_fence hashF (jsSplitLines content) (jsSplitLines content).enum
    ⟨[], [], 0, false, 0⟩
    (fun x hx => hnofence x.2 (by
      rw [← List.enum_map_snd (jsSplitLines content)]
      exact List.mem_map_of_mem _ hx))
    rfl]
  rw [show ((jsSplitLines content).enum.map (fun x => x.2)) = jsSplitLines content from by
    rw [show (fun x : Nat × String => x.2) = Prod.snd from rfl]
    exact List.enum_map_snd _]
  rfl

/-- Counterexample to C6 as stated: in `"a\n```\nc\n```"` the code fence
directly follows the text line, so the rejoined document acquires a
blank-line separator that is not present in the original; the round trip
differs from the normalized document, and normalizing the round trip
does not repair it. -/
theorem C6_roundtrip_counterexample :
    joinParsedParagraphs (splitIntoParagraphsWithHash exHash "a\n```\nc\n```") ≠
      specNormalizeBlankLines "a\n```\nc\n```" ∧
    specNormalizeBlankLines
        (joinParsedParagraphs (splitIntoParagraphsWithHash exHash "a\n```\nc\n```")) ≠
      specNormalizeBlankLines "a\n```\nc\n```" := by
  decide

/-- Witness for C6 (amended): a fence-free document with surplus blank
lines (including a whitespace-only one) joins back to its normalized
form. -/
theorem C6_roundtrip_modulo_blank_lines_witness :
    joinParsedParagraphs (splitIntoParagraphsWithHash exHash "a\n\n\n \nb\n") =
      specNormalizeBlankLines "a\n\n\n \nb\n" :=
  C6_roundtrip_modulo_blank_lines exHash "a\n\n\n \nb\n" (by decide)

/-- A JavaScript array update never shrinks the array. -/
theorem updAt_length_mono {α : Type} (l : List α) (i : Nat) (a : α) :
    l.length ≤ (updAt l i a).length := by
  unfold updAt
  split
  · simp
  · simp

/-- The update fold leaves positions none of its updates target
unchanged (updates at other positions set other slots, and appends land
at or beyond the original length). -/
theorem foldUpd_untouched {α : Type} (v : Nat × String → α) (i : Nat) :
    ∀ (U : List (Nat × String)) (L : List α), i < L.length → (∀ u ∈ U, u.1 ≠ i) →
    (U.foldl (fun acc u => updAt acc u.1 (v u)) L)[i]? = L[i]? := by
  intro U
  induction U with
  | nil => intro L _ _; rfl
  | cons u rest ih =>
    intro L hi hne
    rw [List.foldl_cons]
    have huk : u.1 ≠ i := hne u (List.mem_cons_self u rest)
    have hstep : (updAt L u.1 (v u))[i]? = L[i]? := by
      unfold updAt
      split
      · exact List.getElem?_set_ne huk
      · exact List.getElem?_append_left hi
    rw [← hstep]
    exact ih (updAt L u.1 (v u)) (Nat.lt_of_lt_of_le hi (updAt_length_mono L u.1 (v u)))
      (fun y hy => hne y (List.mem_cons_of_mem u hy))

/-- The update fold stores each update's value at the update's own index,
provided the keys are strictly increasing and have no gap above the
initial length (every index between the current array end and a key is
itself a key — which holds for the modified-index list, since every
position beyond the saved mapping is marked modified). -/
theorem foldUpd_touched {α : Type} (v : Nat × String → α) :
    ∀ (U : List (Nat × String)) (L : List α),
    ((U.map (fun u => u.1)).Pairwise (· < ·)) →
    (∀ u ∈ U, ∀ j, L.length ≤ j → j < u.1 → j ∈ U.map (fun u => u.1)) →
    ∀ u ∈ U, (U.foldl (fun acc u => updAt acc u.1 (v u)) L)[u.1]? = some (v u) := by
  intro U
  induction U with
  | nil => intro L _ _ u hu; cases hu
  | cons u0 rest ih =>
    intro L hsort hdc u hu
    rw [List.foldl_cons]
    have hsort' : (rest.map (fun u => u.1)).Pairwise (· < ·) := by
      rw [List.map_cons] at hsort
      exact (List.pairwise_cons.1 hsort).2
    have hgt : ∀ y ∈ rest, u0.1 < y.1 := by
      intro y hy
      rw [List.map_cons] at hsort
      exact (List.pairwise_cons.1 hsort).1 y.1 (List.mem_map_of_mem _ hy)
    -- the head key either hits an existing slot or is exactly the next one
    have hEqOrLt : u0.1 < L.length ∨ u0.1 = L.length := by
      by_cases hlt : u0.1 < L.length
      · exact Or.inl hlt
      · right
        have hle := Nat.le_of_not_lt hlt
        by_contra hne
        have hLlt : L.length < u0.1 := Nat.lt_of_le_of_ne hle (fun h => hne h.symm)
        have hmem := hdc u0 (List.mem_cons_self u0 rest) L.length le_rfl hLlt
        rw [List.map_cons] at hmem
        rcases List.mem_cons.1 hmem with hd | hmem2
        · omega
        · obtain ⟨y, hy, hyEq⟩ := List.mem_map.1 hmem2
          have := hgt y hy
          omega
    have hulen : (updAt L u0.1 (v u0)).length =
        if u0.1 < L.length then L.length else L.length + 1 := by
      unfold updAt
      split
      · simp only [List.length_set, if_pos (by assumption)]
      · simp only [List.length_append, List.length_cons, List.length_nil,
          if_neg (by assumption)]
    have hdc2 : ∀ y ∈ rest, ∀ j, (updAt L u0.1 (v u0)).length ≤ j → j < y.1 →
        j ∈ rest.map (fun u => u.1) := by
      intro y hy j hj hjy
      have hjL : L.length ≤ j := Nat.le_trans (updAt_length_mono L u0.1 (v u0)) hj
      have hmem := hdc y (List.mem_cons_of_mem u0 hy) j hjL hjy
      rw [List.map_cons] at hmem
      rcases List.mem_cons.1 hmem with rfl | hmem2
      · exfalso
        rcases hEqOrLt with hlt | heq
        · omega
        · rw [hulen, if_neg (by omega)] at hj
          omega
      · exact hmem2
    rcases List.mem_cons.1 hu with rfl | hu2
    · -- the head update: its slot is set (or appended exactly at the end)
      have hval : (updAt L u.1 (v u))[u.1]? = some (v u) := by
        unfold updAt
        rcases hEqOrLt with hlt | heq
        · rw [if_pos hlt]
          exact List.getElem?_set_self hlt
        · rw [if_neg (by omega), heq]
          exact List.getElem?_concat_length L (v u)
      rw [← hval]
      apply foldUpd_untouched
      · rw [hulen]
        rcases hEqOrLt with hlt | heq <;> [rw [if_pos hlt]; rw [if_neg (by omega)]] <;> omega
      · intro y hy
        have := hgt y hy
        omega
    · exact ih (updAt L u0.1 (v u0)) hsort' hdc2 u hu2

/-- Mapping a projection through the update fold: the projection of the
updated list is the fold of the projected updates on the projected list.
This links the `newParagraphs` rebuild to the `sourceParagraphContents`
rebuild of the reverse reconciler. -/
theorem foldUpd_map {α β : Type} (g : α → β) (v : Nat × String → α) (w : Nat × String → β)
    (hvw : ∀ u, g (v u) = w u) :
    ∀ (U : List (Nat × String)) (P : List α),
    (U.foldl (fun acc u => updAt acc u.1 (v u)) P).map g =
      U.foldl (fun acc u => updAt acc u.1 (w u)) (P.map g) := by
  intro U
  induction U with
  | nil => intro P; rfl
  | cons u rest ih =>
    intro P
    rw [List.foldl_cons, List.foldl_cons, ih]
    congr 1
    unfold updAt
    rw [List.length_map]
    split
    · rw [List.map_set, hvw]
    · rw [List.map_append]
      simp [hvw]

/-- Membership in the modified-index list, unfolded: a position is marked
exactly when it indexes an edited paragraph and either no saved entry
exists there or the edited paragraph differs from the saved translation. -/
theorem computeModifiedIndices_mem_iff (cur : List String) (saved : List ParagraphMapping)
    (i : Nat) :
    i ∈ computeModifiedIndices cur saved ↔
      (i < cur.length ∧ (saved[i]? = none ∨ ∃ sp, saved[i]? = some sp ∧
        cur[i]? ≠ some sp.translatedContent)) := by
  unfold computeModifiedIndices
  rw [List.mem_filter, List.mem_range]
  constructor
  · rintro ⟨hi, hmod⟩
    refine ⟨hi, ?_⟩
    unfold isModified at hmod
    cases hs : saved[i]? with
    | none => exact Or.inl rfl
    | some sp =>
      rw [hs] at hmod
      right
      refine ⟨sp, rfl, ?_⟩
      rw [bne_iff_ne] at hmod
      have hcur : cur[i]? = some (cur.getD i "") := by
        rw [List.getD_eq_getElem?_getD]
        cases hc : cur[i]? with
        | none =>
          have := List.getElem?_eq_none_iff.1 hc
          omega
        | some t => rfl
      rw [hcur]
      intro heq
      injection heq with heq
      exact hmod heq
  · rintro ⟨hi, hcase⟩
    refine ⟨hi, ?_⟩
    unfold isModified
    rcases hcase with hnone | ⟨sp, hsp, hne⟩
    · rw [hnone]
    · rw [hsp]
      have hcur : cur[i]? = some (cur.getD i "") := by
        rw [List.getD_eq_getElem?_getD]
        cases hc : cur[i]? with
        | none =>
          have := List.getElem?_eq_none_iff.1 hc
          omega
        | some t => rfl
      rw [bne_iff_ne]
      intro heq
      exact hne (by rw [hcur, heq])

/-- The modified indices are strictly increasing. -/
theorem computeModifiedIndices_pairwise (cur : List String) (saved : List ParagraphMapping) :
    (computeModifiedIndices cur saved).Pairwise (· < ·) :=
  (List.pairwise_lt_range cur.length).filter _

/-- Every marked index is a position of the edited document. -/
theorem computeModifiedIndices_lt (cur : List String) (saved : List ParagraphMapping)
    (i : Nat) (hi : i ∈ computeModifiedIndices cur saved) : i < cur.length := by
  have := (List.mem_filter.1 hi).1
  exact List.mem_range.1 this

/-- Every position of the edited document beyond the saved mapping is
marked modified. -/
theorem computeModifiedIndices_mem_of_ge (cur : List String) (saved : List ParagraphMapping)
    (j : Nat) (hlen : saved.length ≤ j) (hcur : j < cur.length) :
    j ∈ computeModifiedIndices cur saved := by
  unfold computeModifiedIndices
  rw [List.mem_filter, List.mem_range]
  refine ⟨hcur, ?_⟩
  unfold isModified
  rw [List.getElem?_eq_none hlen]

/-- The rebuilt update list of the reverse reconciler, on a successful
dispatch, pairs each modified index with the translation of its edited
paragraph. -/
theorem reverse_upds_eq (f : String → TranslationResult) (cur : List String) (M : List Nat)
    (resFun : Nat → Option TranslationResult)
    (hres : ∀ k, resFun k = ((M.map (fun i => cur.getD i ""))[k]?).map f) :
    M.enum.map
        (fun ki => (ki.2, ((resFun ki.1).getD defaultTranslationResult).translatedText)) =
      M.map (fun i => (i, (f (cur.getD i "")).translatedText)) := by
  apply List.ext_getElem?
  intro k
  rw [List.getElem?_map, List.getElem?_map]
  rw [show M.enum = M.enumFrom 0 from rfl, List.getElem?_enumFrom]
  cases hk : M[k]? with
  | none => rfl
  | some i =>
    simp only [Option.map_some', Nat.zero_add]
    rw [hres k]
    rw [show (M.map (fun i => cur.getD i ""))[k]? = some (cur.getD i "") from by
      rw [List.getElem?_map, hk]; rfl]
    rfl

/-- C8 (amended): position `i` is marked modified exactly when it indexes
a paragraph of the edited document and either no prior entry exists at
`i` or that paragraph differs from the prior `translatedContent`. When at
least one index is modified, each modified index's new entry is
`{sourceContent := freshly translated text, translatedContent := edited
paragraph, sourceHash := hash(sourceContent)}`, untouched indices carry
over with `sourceContent` and `translatedContent` unchanged but an empty
`sourceHash` backfilled with `hash(sourceContent)`, and the rebuilt
source is the join of the new entries' `sourceContent` fields (so
untouched paragraphs are byte-identical in it); with no modified index
the prior mapping is returned unchanged. -/
theorem C8_reverse_mark_and_rebuild (hashF : String → String) (f : String → TranslationResult)
    (cap : Nat) (sig : Nat → Bool) (c : String) (saved : List ParagraphMapping)
    (hcap : 0 < cap) :
    (∀ i, i ∈ computeModifiedIndices (splitIntoParagraphs c) saved ↔
      (i < (splitIntoParagraphs c).length ∧
        (saved[i]? = none ∨ ∃ sp, saved[i]? = some sp ∧
          (splitIntoParagraphs c)[i]? ≠ some sp.translatedContent))) ∧
    (∀ r, (reverseTranslate hashF f cap sig c saved).1 = Except.ok r →
      (∀ i ∈ computeModifiedIndices (splitIntoParagraphs c) saved,
        r.newParagraphs[i]? = some
          ⟨(f ((splitIntoParagraphs c).getD i "")).translatedText,
           (splitIntoParagraphs c).getD i "",
           hashF ((f ((splitIntoParagraphs c).getD i "")).translatedText)⟩) ∧
      (computeModifiedIndices (splitIntoParagraphs c) saved ≠ [] →
        ∀ i, i < saved.length → i ∉ computeModifiedIndices (splitIntoParagraphs c) saved →
          r.newParagraphs[i]? = (saved[i]?).map (fun p =>
            { p with sourceHash :=
                if p.sourceHash = "" then hashF p.sourceContent else p.sourceHash })) ∧
      (computeModifiedIndices (splitIntoParagraphs c) saved = [] →
        r.newParagraphs = saved) ∧
      r.newSourceContent = joinParagraphs (r.newParagraphs.map (fun p => p.sourceContent))) := by
  refine ⟨fun i => computeModifiedIndices_mem_iff (splitIntoParagraphs c) saved i, ?_⟩
  intro r hr
  simp only [reverseTranslate] at hr
  by_cases hM : (computeModifiedIndices (splitIntoParagraphs c) saved).length = 0
  · rw [if_pos hM] at hr
    injection hr with hr
    subst hr
    have hMnil : computeModifiedIndices (splitIntoParagraphs c) saved = [] :=
      List.eq_nil_of_length_eq_zero hM
    refine ⟨?_, ?_, ?_, ?_⟩
    · intro i hi
      rw [hMnil] at hi
      cases hi
    · intro hne
      exact absurd hMnil hne
    · intro _
      rfl
    · rfl
  · rw [if_neg hM] at hr
    revert hr
    cases hdisp : (translateParagraphs f cap sig
        ((computeModifiedIndices (splitIntoParagraphs c) saved).map
          (fun i => (splitIntoParagraphs c).getD i ""))).1 with
    | error e => intro hr; cases hr
    | ok resFun =>
      intro hr
      injection hr with hr
      subst hr
      have hres := translateParagraphs_ok_value f cap sig _ resFun hcap hdisp
      have hupds := reverse_upds_eq f (splitIntoParagraphs c)
        (computeModifiedIndices (splitIntoParagraphs c) saved) resFun hres
      dsimp only
      rw [hupds]
      have hkeys : ((computeModifiedIndices (splitIntoParagraphs c) saved).map
            (fun i => (i, (f ((splitIntoParagraphs c).getD i "")).translatedText))).map
          (fun u => u.1) = computeModifiedIndices (splitIntoParagraphs c) saved := by
        rw [List.map_map]
        exact List.map_id _
      have hsort : (((computeModifiedIndices (splitIntoParagraphs c) saved).map
            (fun i => (i, (f ((splitIntoParagraphs c).getD i "")).translatedText))).map
          (fun u => u.1)).Pairwise (· < ·) := by
        rw [hkeys]
        exact computeModifiedIndices_pairwise _ _
      have hL0len : (saved.map (fun p =>
          { p with sourceHash :=
              if p.sourceHash = "" then hashF p.sourceContent else p.sourceHash })).length =
          saved.length := List.length_map _ _
      have hdc : ∀ u ∈ (computeModifiedIndices (splitIntoParagraphs c) saved).map
            (fun i => (i, (f ((splitIntoParagraphs c).getD i "")).translatedText)),
          ∀ j, (saved.map (fun p =>
            { p with sourceHash :=
                if p.sourceHash = "" then hashF p.sourceContent else p.sourceHash })).length ≤ j →
          j < u.1 →
          j ∈ ((computeModifiedIndices (splitIntoParagraphs c) saved).map
            (fun i => (i, (f ((splitIntoParagraphs c).getD i "")).translatedText))).map
              (fun u => u.1) := by
        intro u hu j hj hju
        rw [hkeys]
        obtain ⟨i0, hi0, hi0u⟩ := List.mem_map.1 hu
        have hiM : u.1 < (splitIntoParagraphs c).length := by
          have hu1 : u.1 = i0 := by rw [← hi0u]
          have := computeModifiedIndices_lt _ saved i0 hi0
          omega
        rw [hL0len] at hj
        exact computeModifiedIndices_mem_of_ge _ saved j hj (by omega)
      refine ⟨?_, ?_, ?_, ?_⟩
      · intro i hi
        have hmem : (i, (f ((splitIntoParagraphs c).getD i "")).translatedText) ∈
            (computeModifiedIndices (splitIntoParagraphs c) saved).map
              (fun i => (i, (f ((splitIntoParagraphs c).getD i "")).translatedText)) :=
          List.mem_map_of_mem _ hi
        exact foldUpd_touched
          (fun u => (⟨u.2, (splitIntoParagraphs c).getD u.1 "", hashF u.2⟩ : ParagraphMapping))
          _ _ hsort hdc _ hmem
      · intro _ i hilen hiM
        have huntouched := foldUpd_untouched
          (fun u => (⟨u.2, (splitIntoParagraphs c).getD u.1 "", hashF u.2⟩ : ParagraphMapping))
          i ((computeModifiedIndices (splitIntoParagraphs c) saved).map
            (fun i => (i, (f ((splitIntoParagraphs c).getD i "")).translatedText)))
          (saved.map (fun p =>
            { p with sourceHash :=
                if p.sourceHash = "" then hashF p.sourceContent else p.sourceHash }))
          (by rw [hL0len]; exact hilen)
          (by
            intro u hu
            obtain ⟨i0, hi0, hi0u⟩ := List.mem_map.1 hu
            intro hui
            rw [← hi0u] at hui
            simp only at hui
            rw [hui] at hi0
            exact hiM hi0)
        rw [huntouched]
        rw [List.getElem?_map]
      · intro h
        exact absurd (by simp [h] : (computeModifiedIndices (splitIntoParagraphs c) saved).length
          = 0) hM
      · rw [foldUpd_map (fun p => p.sourceContent)
          (fun u => (⟨u.2, (splitIntoParagraphs c).getD u.1 "", hashF u.2⟩ : ParagraphMapping))
          (fun u => u.2) (fun u => rfl)]
        rw [List.map_map]
        rfl

/-- Counterexample to C8 as stated: with a prior entry whose stored
`sourceHash` is the empty string, an untouched index does not carry over
byte-identically in the mapping — the empty hash is backfilled with the
hash of the source content (`"#x"` here), so the untouched entry differs
from the prior one. -/
theorem C8_untouched_entry_not_identical :
    computeModifiedIndices (splitIntoParagraphs "y\n\nz") [⟨"x", "y", ""⟩] = [1] ∧
    (0 : Nat) ∉ computeModifiedIndices (splitIntoParagraphs "y\n\nz") [⟨"x", "y", ""⟩] ∧
    (reverseTranslate exHash exTranslate 3 sigNever "y\n\nz" [⟨"x", "y", ""⟩]).1 =
      Except.ok ⟨[1], [(1, "T:z")], "x\n\nT:z",
        [⟨"x", "y", "#x"⟩, ⟨"T:z", "z", "#T:z"⟩]⟩ ∧
    ([⟨"x", "y", "#x"⟩, ⟨"T:z", "z", "#T:z"⟩] : List ParagraphMapping)[0]? ≠
      some ⟨"x", "y", ""⟩ := by
  decide

/-- Witness for C8 (amended) at a concrete input: with paragraph 0 of 2
edited, the modified entry is rebuilt from the fresh translation, the
untouched entry carries over (hash already non-empty), and the rebuilt
source is the join of the new source contents. -/
theorem C8_reverse_mark_and_rebuild_witness :
    (⟨[0], [(0, "T:X")], "T:X\n\nworld",
      [⟨"T:X", "X", "#T:X"⟩, ⟨"world", "monde", "#world"⟩]⟩ :
        ReverseTranslationResult).newParagraphs[0]? = some ⟨"T:X", "X", "#T:X"⟩ ∧
    (⟨[0], [(0, "T:X")], "T:X\n\nworld",
      [⟨"T:X", "X", "#T:X"⟩, ⟨"world", "monde", "#world"⟩]⟩ :
        ReverseTranslationResult).newParagraphs[1]? = some ⟨"world", "monde", "#world"⟩ ∧
    (⟨[0], [(0, "T:X")], "T:X\n\nworld",
      [⟨"T:X", "X", "#T:X"⟩, ⟨"world", "monde", "#world"⟩]⟩ :
        ReverseTranslationResult).newSourceContent =
      joinParagraphs ((⟨[0], [(0, "T:X")], "T:X\n\nworld",
        [⟨"T:X", "X", "#T:X"⟩, ⟨"world", "monde", "#world"⟩]⟩ :
          ReverseTranslationResult).newParagraphs.map (fun p => p.sourceContent)) := by
  have h := (C8_reverse_mark_and_rebuild exHash exTranslate 3 sigNever "X\n\nmonde"
    [⟨"hello", "bonjour", "#hello"⟩, ⟨"world", "monde", "#world"⟩] (by decide)).2
    ⟨[0], [(0, "T:X")], "T:X\n\nworld",
      [⟨"T:X", "X", "#T:X"⟩, ⟨"world", "monde", "#world"⟩]⟩
    (by decide)
  refine ⟨?_, ?_, h.2.2.2⟩
  · have h0 := h.1 0 (by decide)
    rw [h0]
    decide
  · have h1 := h.2.1 (by decide) 1 (by decide) (by decide)
    rw [h1]
    decide
